import Mathlib

/-!
Verification of the pixel-representation core of iff2gif (chunky.cpp, planar.cpp)
against its natural-language specification.

The C++ code is shallowly embedded: byte buffers become functions `Nat → Nat`
or lists `List Nat`, machine `int` arithmetic becomes `Int` (with `Int.tdiv`
for C's truncating division), `uint8_t` stores that can truncate are modelled
with `% 256`, and the imperative loops become structural recursions carrying
their state explicitly.
-/

/-- A palette entry: `ColorRegister { uint8_t red, green, blue; }` (declared in
iff2gif.h; per the spec each channel is an 8-bit intensity).  Channels are
modelled as `Nat`; theorems that need the 8-bit range take it as a hypothesis. -/
structure ColorRegister where
  red : Nat
  green : Nat
  blue : Nat
deriving DecidableEq

/-- std::clamp(v, lo, hi): `v < lo ? lo : hi < v ? hi : v`. -/
def cclamp (v lo hi : Int) : Int :=
  if v < lo then lo else if hi < v then hi else v

/-- The distance computed inside the scan loop of `NearestColor`
(chunky.cpp:297-302): with `rmean = (r + pal[c].red) / 2`,
`dist = (512+rmean)*x*x + 1024*y*y + (767-rmean)*z*z` where `x,y,z` are the
channel differences.  Out-of-range palette reads are modelled as the zero
color (the C++ never performs them in the scanned range). -/
def colorDist (pal : List ColorRegister) (r g b : Int) (c : Nat) : Int :=
  let p := pal.getD c ⟨0, 0, 0⟩
  let rmean := Int.tdiv (r + (p.red : Int)) 2
  let x := r - (p.red : Int)
  let y := g - (p.green : Int)
  let z := b - (p.blue : Int)
  (512 + rmean) * x * x + 1024 * y * y + (767 - rmean) * z * z

/-- The scan loop of `NearestColor` (chunky.cpp:295-311): `c` is the current
color index, the fuel is `num - c`, `bc`/`bd` are `bestcolor`/`bestdist`.
A zero distance returns immediately; a smaller distance updates the best. -/
def ncGo (pal : List ColorRegister) (r g b : Int) : Nat → Nat → Nat → Int → Nat
  | _, 0, bc, _ => bc
  | c, n + 1, bc, bd =>
    if colorDist pal r g b c < bd then
      (if colorDist pal r g b c = 0 then c
       else ncGo pal r g b (c + 1) n c (colorDist pal r g b c))
    else ncGo pal r g b (c + 1) n bc bd

/-- `NearestColor(pal, r, g, b, first, num)` (chunky.cpp:290-313):
`bestcolor` starts at `first`, `bestdist` at `INT_MAX`, and the loop scans
colors `first ≤ color < num`. -/
def NearestColor (pal : List ColorRegister) (r g b : Int) (first num : Nat) : Nat :=
  ncGo pal r g b first (num - first) first 2147483647

/-- One row of a diffusion kernel (`ChunkyBitmap::Diffuser`): a 16.16
fixed-point weight and the list of `(dx, dy)` target offsets receiving that
weight.  The C++ stores the targets in a fixed array terminated by a `(0,0)`
sentinel and stops its inner loop at that sentinel (chunky.cpp:455); the list
holds exactly the targets written in the initializer, none of which is
`(0,0)`, so iterating the whole list is the same computation. -/
structure Diffuser where
  weight : Int
  targets : List (Int × Int)
deriving DecidableEq

/-- Floyd-Steinberg kernel (chunky.cpp:316-321).  The zero-weight sentinel
entry `{ 0 }` that terminates each kernel's entry loop (chunky.cpp:449) is
represented by the end of the list. -/
def FloydSteinberg : List Diffuser :=
  [⟨28672, [(1, 0)]⟩, ⟨12288, [(-1, 1)]⟩, ⟨20480, [(0, 1)]⟩, ⟨4096, [(1, 1)]⟩]

/-- Jarvis-Judice-Ninke kernel (chunky.cpp:323-328). -/
def JarvisJudiceNinke : List Diffuser :=
  [⟨9557, [(1, 0), (0, 1)]⟩, ⟨6826, [(2, 0), (-1, 1), (1, 1), (0, 2)]⟩,
   ⟨4096, [(-2, 1), (2, 1), (-1, 2), (1, 2)]⟩, ⟨1365, [(-2, 2), (2, 2)]⟩]

/-- Stucki kernel (chunky.cpp:330-335). -/
def Stucki : List Diffuser :=
  [⟨12483, [(1, 0), (0, 1)]⟩, ⟨6241, [(2, 0), (-1, 1), (1, 1), (0, 2)]⟩,
   ⟨3120, [(-2, 1), (2, 1), (-1, 2), (1, 2)]⟩, ⟨1560, [(-2, 2), (2, 2)]⟩]

/-- Atkinson kernel (chunky.cpp:337-339). -/
def Atkinson : List Diffuser :=
  [⟨8192, [(1, 0), (2, 0), (-1, 1), (0, 1), (1, 1), (0, 2)]⟩]

/-- Burkes kernel (chunky.cpp:341-345). -/
def Burkes : List Diffuser :=
  [⟨16384, [(1, 0), (0, 1)]⟩, ⟨8192, [(2, 0), (-1, 1), (1, 1)]⟩,
   ⟨4096, [(-2, 1), (2, 1)]⟩]

/-- Sierra-3 kernel (chunky.cpp:347-352). -/
def Sierra3 : List Diffuser :=
  [⟨10240, [(1, 0), (0, 1)]⟩, ⟨8192, [(-1, 1), (1, 1)]⟩,
   ⟨6144, [(2, 0), (0, 2)]⟩, ⟨4096, [(-2, 1), (2, 1), (-1, 2), (1, 2)]⟩]

/-- Sierra-2 kernel (chunky.cpp:354-359). -/
def Sierra2 : List Diffuser :=
  [⟨16384, [(1, 0)]⟩, ⟨12288, [(2, 0), (0, 1)]⟩, ⟨8192, [(-1, 1), (1, 1)]⟩,
   ⟨4096, [(-2, 1), (2, 1)]⟩]

/-- Sierra-Lite kernel (chunky.cpp:361-364). -/
def SierraLite : List Diffuser :=
  [⟨32768, [(1, 0)]⟩, ⟨16384, [(-1, 1), (0, 1)]⟩]

/-- The kernel table `ErrorDiffusionKernels` (chunky.cpp:367-376). -/
def ErrorDiffusionKernels : List (List Diffuser) :=
  [FloydSteinberg, JarvisJudiceNinke, Stucki, Burkes, Atkinson,
   Sierra3, Sierra2, SierraLite]

/-- Sum over a kernel's entries of (weight times number of targets in that
entry): the total fraction of one 16.16 error unit the kernel diffuses. -/
def kernelWeightTotal (k : List Diffuser) : Int :=
  (k.map (fun d => d.weight * (d.targets.length : Int))).sum

-- ## NearestColor: argmin characterization

/-- Channel bound for a palette lookup: if every palette entry is 8-bit, so is
any `getD` result (the default is the zero color). -/
theorem getD_channels_le (pal : List ColorRegister)
    (hpal : ∀ p ∈ pal, p.red ≤ 255 ∧ p.green ≤ 255 ∧ p.blue ≤ 255) (c : Nat) :
    (pal.getD c ⟨0, 0, 0⟩).red ≤ 255 ∧ (pal.getD c ⟨0, 0, 0⟩).green ≤ 255 ∧
    (pal.getD c ⟨0, 0, 0⟩).blue ≤ 255 := by
  by_cases h : c < pal.length
  · rw [List.getD_eq_getElem pal _ h]
    exact hpal _ (pal.getElem_mem h)
  · rw [List.getD_eq_default pal _ (Nat.le_of_not_lt h)]
    exact ⟨Nat.zero_le _, Nat.zero_le _, Nat.zero_le _⟩

/-- Pure arithmetic core of the distance bound: with an 8-bit `rmean` and
channel differences in `[-255, 255]`, the redmean distance is nonnegative and
strictly below `INT_MAX`. -/
theorem distFormula_bounds (m a b c : Int)
    (hm : 0 ≤ m ∧ m ≤ 255) (ha : -255 ≤ a ∧ a ≤ 255)
    (hb : -255 ≤ b ∧ b ≤ 255) (hc : -255 ≤ c ∧ c ≤ 255) :
    0 ≤ (512 + m) * a * a + 1024 * b * b + (767 - m) * c * c ∧
    (512 + m) * a * a + 1024 * b * b + (767 - m) * c * c < 2147483647 := by
  have haa : 0 ≤ a * a ∧ a * a ≤ 65025 := ⟨mul_self_nonneg a, by nlinarith⟩
  have hbb : 0 ≤ b * b ∧ b * b ≤ 65025 := ⟨mul_self_nonneg b, by nlinarith⟩
  have hcc : 0 ≤ c * c ∧ c * c ≤ 65025 := ⟨mul_self_nonneg c, by nlinarith⟩
  have e1 : (512 + m) * a * a = (512 + m) * (a * a) := by ring
  have e2 : (1024 : Int) * b * b = 1024 * (b * b) := by ring
  have e3 : (767 - m) * c * c = (767 - m) * (c * c) := by ring
  rw [e1, e2, e3]
  constructor
  · have h1 : 0 ≤ (512 + m) * (a * a) := mul_nonneg (by omega) haa.1
    have h2 : 0 ≤ (1024 : Int) * (b * b) := mul_nonneg (by omega) hbb.1
    have h3 : 0 ≤ (767 - m) * (c * c) := mul_nonneg (by omega) hcc.1
    omega
  · have h1 : (512 + m) * (a * a) ≤ 767 * 65025 := by nlinarith [haa.1, haa.2]
    have h2 : (1024 : Int) * (b * b) ≤ 1024 * 65025 := by nlinarith [hbb.1, hbb.2]
    have h3 : (767 - m) * (c * c) ≤ 767 * 65025 := by nlinarith [hcc.1, hcc.2]
    omega

/-- Unfolding of `colorDist` with the lets substituted. -/
theorem colorDist_eq (pal : List ColorRegister) (r g b : Int) (c : Nat) :
    colorDist pal r g b c =
      (512 + Int.tdiv (r + ((pal.getD c ⟨0, 0, 0⟩).red : Int)) 2) *
          (r - ((pal.getD c ⟨0, 0, 0⟩).red : Int)) *
          (r - ((pal.getD c ⟨0, 0, 0⟩).red : Int)) +
        1024 * (g - ((pal.getD c ⟨0, 0, 0⟩).green : Int)) *
          (g - ((pal.getD c ⟨0, 0, 0⟩).green : Int)) +
        (767 - Int.tdiv (r + ((pal.getD c ⟨0, 0, 0⟩).red : Int)) 2) *
          (b - ((pal.getD c ⟨0, 0, 0⟩).blue : Int)) *
          (b - ((pal.getD c ⟨0, 0, 0⟩).blue : Int)) := rfl

theorem colorDist_bounds (pal : List ColorRegister) (r g b : Int) (c : Nat)
    (hpal : ∀ p ∈ pal, p.red ≤ 255 ∧ p.green ≤ 255 ∧ p.blue ≤ 255)
    (hr : 0 ≤ r ∧ r ≤ 255) (hg : 0 ≤ g ∧ g ≤ 255) (hb : 0 ≤ b ∧ b ≤ 255) :
    0 ≤ colorDist pal r g b c ∧ colorDist pal r g b c < 2147483647 := by
  obtain ⟨hpr, hpg, hpb⟩ := getD_channels_le pal hpal c
  rw [colorDist_eq]
  have hr255 : ((pal.getD c ⟨0, 0, 0⟩).red : Int) ≤ 255 := by exact_mod_cast hpr
  have hg255 : ((pal.getD c ⟨0, 0, 0⟩).green : Int) ≤ 255 := by exact_mod_cast hpg
  have hb255 : ((pal.getD c ⟨0, 0, 0⟩).blue : Int) ≤ 255 := by exact_mod_cast hpb
  have hr0 : (0 : Int) ≤ ((pal.getD c ⟨0, 0, 0⟩).red : Int) := Int.ofNat_nonneg _
  have hg0 : (0 : Int) ≤ ((pal.getD c ⟨0, 0, 0⟩).green : Int) := Int.ofNat_nonneg _
  have hb0 : (0 : Int) ≤ ((pal.getD c ⟨0, 0, 0⟩).blue : Int) := Int.ofNat_nonneg _
  have htd : Int.tdiv (r + ((pal.getD c ⟨0, 0, 0⟩).red : Int)) 2 =
      (r + ((pal.getD c ⟨0, 0, 0⟩).red : Int)) / 2 :=
    Int.tdiv_eq_ediv (by omega) (by omega)
  exact distFormula_bounds _ _ _ _ (by rw [htd]; omega) (by omega) (by omega) (by omega)

/-- Loop invariant proof for the `NearestColor` scan: starting at color `c`
with `n` colors left and current best `(bc, bd)`, either nothing beat `bd`
and `bc` is returned, or the result is the first index in the remaining range
attaining the minimum distance below `bd`. -/
theorem ncGo_spec (pal : List ColorRegister) (r g b : Int) :
    ∀ (n c bc : Nat) (bd : Int),
    (∀ j, c ≤ j → j < c + n → 0 ≤ colorDist pal r g b j) →
    0 < bd →
    (ncGo pal r g b c n bc bd = bc ∧
      ∀ j, c ≤ j → j < c + n → bd ≤ colorDist pal r g b j) ∨
    (c ≤ ncGo pal r g b c n bc bd ∧ ncGo pal r g b c n bc bd < c + n ∧
      colorDist pal r g b (ncGo pal r g b c n bc bd) < bd ∧
      (∀ j, c ≤ j → j < c + n →
        colorDist pal r g b (ncGo pal r g b c n bc bd) ≤ colorDist pal r g b j) ∧
      (∀ j, c ≤ j → j < ncGo pal r g b c n bc bd →
        colorDist pal r g b (ncGo pal r g b c n bc bd) < colorDist pal r g b j)) := by
  intro n
  induction n with
  | zero =>
    intro c bc bd _ _
    left
    exact ⟨rfl, fun j h1 h2 => absurd h2 (by omega)⟩
  | succ n ih =>
    intro c bc bd h0 hbd
    rw [ncGo]
    by_cases hlt : colorDist pal r g b c < bd
    · by_cases hz : colorDist pal r g b c = 0
      · rw [if_pos hlt, if_pos hz]
        right
        refine ⟨le_refl c, by omega, hlt, ?_, ?_⟩
        · intro j h1 h2
          rw [hz]
          exact h0 j h1 h2
        · intro j h1 h2; omega
      · rw [if_pos hlt, if_neg hz]
        have hdpos : 0 < colorDist pal r g b c := by
          have := h0 c (le_refl c) (by omega)
          omega
        have h0' : ∀ j, c + 1 ≤ j → j < c + 1 + n → 0 ≤ colorDist pal r g b j :=
          fun j h1 h2 => h0 j (by omega) (by omega)
        rcases ih (c + 1) c (colorDist pal r g b c) h0' hdpos with
          ⟨heq, hall⟩ | ⟨hm1, hm2, hm3, hmin, hfirst⟩
        · right
          rw [heq]
          refine ⟨le_refl c, by omega, hlt, ?_, ?_⟩
          · intro j h1 h2
            rcases Nat.eq_or_lt_of_le h1 with h | h
            · rw [← h]
            · exact hall j h (by omega)
          · intro j h1 h2; omega
        · right
          refine ⟨by omega, by omega, by omega, ?_, ?_⟩
          · intro j h1 h2
            rcases Nat.eq_or_lt_of_le h1 with h | h
            · rw [← h]; omega
            · exact hmin j h (by omega)
          · intro j h1 h2
            rcases Nat.eq_or_lt_of_le h1 with h | h
            · rw [← h]; omega
            · exact hfirst j h h2
    · rw [if_neg hlt]
      have h0' : ∀ j, c + 1 ≤ j → j < c + 1 + n → 0 ≤ colorDist pal r g b j :=
        fun j h1 h2 => h0 j (by omega) (by omega)
      rcases ih (c + 1) bc bd h0' hbd with
        ⟨heq, hall⟩ | ⟨hm1, hm2, hm3, hmin, hfirst⟩
      · left
        refine ⟨heq, ?_⟩
        intro j h1 h2
        rcases Nat.eq_or_lt_of_le h1 with h | h
        · rw [← h]; omega
        · exact hall j h (by omega)
      · right
        refine ⟨by omega, by omega, hm3, ?_, ?_⟩
        · intro j h1 h2
          rcases Nat.eq_or_lt_of_le h1 with h | h
          · rw [← h]; omega
          · exact hmin j h (by omega)
        · intro j h1 h2
          rcases Nat.eq_or_lt_of_le h1 with h | h
          · rw [← h]; omega
          · exact hfirst j h h2

/-- Unconditional range of the scan result: it is the initial best or one of
the scanned colors. -/
theorem ncGo_range (pal : List ColorRegister) (r g b : Int) :
    ∀ (n c bc : Nat) (bd : Int),
    ncGo pal r g b c n bc bd = bc ∨
    (c ≤ ncGo pal r g b c n bc bd ∧ ncGo pal r g b c n bc bd < c + n) := by
  intro n
  induction n with
  | zero => intro c bc bd; left; rfl
  | succ n ih =>
    intro c bc bd
    rw [ncGo]
    by_cases hlt : colorDist pal r g b c < bd
    · by_cases hz : colorDist pal r g b c = 0
      · rw [if_pos hlt, if_pos hz]
        right; omega
      · rw [if_pos hlt, if_neg hz]
        rcases ih (c + 1) c (colorDist pal r g b c) with h | h
        · right; omega
        · right; omega
    · rw [if_neg hlt]
      rcases ih (c + 1) bc bd with h | h
      · left; exact h
      · right; omega

/-- `NearestColor` over a nonempty range `[first, num)` returns an index in
that range, whatever the inputs. -/
theorem NearestColor_mem (pal : List ColorRegister) (r g b : Int) (first num : Nat)
    (h : first < num) :
    first ≤ NearestColor pal r g b first num ∧ NearestColor pal r g b first num < num := by
  unfold NearestColor
  rcases ncGo_range pal r g b (num - first) first first 2147483647 with heq | hr
  · rw [heq]; omega
  · omega

/-- NearestColor returns `first` when the range is empty. -/
theorem NearestColor_empty (pal : List ColorRegister) (r g b : Int) (first num : Nat)
    (h : num ≤ first) : NearestColor pal r g b first num = first := by
  unfold NearestColor
  have : num - first = 0 := by omega
  rw [this, ncGo]

-- ## Claim C1: kernel weight totals

/-- C1 counterexample: the claim that every built-in kernel's weights (times
target counts) sum to exactly 65536 is false: the Atkinson kernel diffuses
only 6 targets at weight 8192 each, totalling 49152 (three quarters of one
error unit), by design. -/
theorem C1_counterexample_atkinson :
    Atkinson ∈ ErrorDiffusionKernels ∧ kernelWeightTotal Atkinson = 49152 ∧
    kernelWeightTotal Atkinson ≠ 65536 := by decide

/-- C1 (amended): the exact weight totals of the eight built-in kernels.
Floyd-Steinberg, Burkes, Sierra-3, Sierra-2 and Sierra-Lite conserve exactly
65536; Jarvis-Judice-Ninke and Stucki lose 4 and 6 units respectively to
16.16 fixed-point truncation; Atkinson intentionally diffuses only 49152
(6/8 of one unit). -/
theorem C1_kernel_weight_totals :
    kernelWeightTotal FloydSteinberg = 65536 ∧
    kernelWeightTotal JarvisJudiceNinke = 65532 ∧
    kernelWeightTotal Stucki = 65530 ∧
    kernelWeightTotal Burkes = 65536 ∧
    kernelWeightTotal Atkinson = 49152 ∧
    kernelWeightTotal Sierra3 = 65536 ∧
    kernelWeightTotal Sierra2 = 65536 ∧
    kernelWeightTotal SierraLite = 65536 := by decide

-- ## Claim C3: NearestColor is a first-match argmin

/-- C3: over a nonempty subrange `[first, num)` and 8-bit inputs,
`NearestColor` returns an index in the subrange whose redmean distance is
minimal; ties go to the lowest index (every strictly earlier index has
strictly larger distance); and any index of distance exactly zero is at or
after the returned one (the scan returns the first zero-distance hit
immediately). -/
theorem C3_NearestColor_argmin (pal : List ColorRegister) (r g b : Int)
    (first num : Nat) (hfn : first < num)
    (hr : 0 ≤ r ∧ r ≤ 255) (hg : 0 ≤ g ∧ g ≤ 255) (hb : 0 ≤ b ∧ b ≤ 255)
    (hpal : ∀ p ∈ pal, p.red ≤ 255 ∧ p.green ≤ 255 ∧ p.blue ≤ 255) :
    (first ≤ NearestColor pal r g b first num ∧
      NearestColor pal r g b first num < num) ∧
    (∀ c, first ≤ c → c < num →
      colorDist pal r g b (NearestColor pal r g b first num) ≤ colorDist pal r g b c) ∧
    (∀ c, first ≤ c → c < NearestColor pal r g b first num →
      colorDist pal r g b (NearestColor pal r g b first num) < colorDist pal r g b c) ∧
    (∀ c, first ≤ c → c < num → colorDist pal r g b c = 0 →
      NearestColor pal r g b first num ≤ c) := by
  have hb0 : ∀ j, 0 ≤ colorDist pal r g b j ∧ colorDist pal r g b j < 2147483647 :=
    fun j => colorDist_bounds pal r g b j hpal hr hg hb
  have hcn : first + (num - first) = num := by omega
  unfold NearestColor
  rcases ncGo_spec pal r g b (num - first) first first 2147483647
      (fun j _ _ => (hb0 j).1) (by omega) with
    ⟨_, hall⟩ | ⟨hm1, hm2, hm3, hmin, hfirst⟩
  · exact absurd (hall first (le_refl first) (by omega)) (by
      have := (hb0 first).2; omega)
  · refine ⟨⟨hm1, by omega⟩, ?_, ?_, ?_⟩
    · intro c h1 h2
      exact hmin c h1 (by omega)
    · intro c h1 h2
      exact hfirst c h1 h2
    · intro c h1 h2 h3
      by_contra hcon
      have hlt : c < ncGo pal r g b first (num - first) first 2147483647 := by omega
      have := hfirst c h1 hlt
      rw [h3] at this
      have := (hb0 (ncGo pal r g b first (num - first) first 2147483647)).1
      omega

/-- Concrete palette used by claim witnesses. -/
def witnessPal : List ColorRegister := [⟨0, 0, 0⟩, ⟨10, 10, 10⟩]

/-- Witness for C3 at a concrete input: range `[0, 2)` of a two-color
palette with input color (9,9,9). -/
theorem C3_witness :
    (0 ≤ NearestColor witnessPal 9 9 9 0 2 ∧ NearestColor witnessPal 9 9 9 0 2 < 2) ∧
    NearestColor witnessPal 9 9 9 0 2 = 1 :=
  ⟨(C3_NearestColor_argmin witnessPal 9 9 9 0 2 (by decide) (by decide) (by decide)
      (by decide) (by decide)).1, by decide⟩

-- ## Claim C10: kernel targets stay ahead of the scan and inside 3 rows

/-- Decidable core of C10 over the whole kernel table. -/
theorem kernelTargets_bounds :
    ∀ k ∈ ErrorDiffusionKernels, ∀ d ∈ k, ∀ t ∈ d.targets,
      0 ≤ t.2 ∧ t.2 ≤ 2 ∧ (1 ≤ t.2 ∨ 1 ≤ t.1) := by decide

/-- C10: every target `(dx, dy)` of every entry of every built-in kernel has
`0 ≤ dy ≤ 2` (so the error-row index `dy` stays inside the 3-row window) and
`dy ≥ 1 ∨ dx ≥ 1`; hence no target is the `(0,0)` sentinel and every target
lies strictly later in raster order than the current pixel. -/
theorem C10_kernel_targets (k : List Diffuser) (hk : k ∈ ErrorDiffusionKernels)
    (d : Diffuser) (hd : d ∈ k) (t : Int × Int) (ht : t ∈ d.targets) :
    (0 ≤ t.2 ∧ t.2 ≤ 2) ∧ t.2.toNat < 3 ∧ (1 ≤ t.2 ∨ 1 ≤ t.1) ∧ t ≠ (0, 0) ∧
    (∀ x : Int, 1 ≤ t.2 ∨ x < x + t.1) := by
  obtain ⟨h1, h2, h3⟩ := kernelTargets_bounds k hk d hd t ht
  refine ⟨⟨h1, h2⟩, by omega, h3, ?_, ?_⟩
  · intro heq
    rw [heq] at h3
    rcases h3 with h | h <;> norm_num at h
  · intro x
    rcases h3 with h | h
    · exact Or.inl h
    · exact Or.inr (by omega)

/-- Witness for C10 at the first Floyd-Steinberg target `(1, 0)`. -/
theorem C10_witness :
    (((1, 0) : Int × Int) ≠ (0, 0)) ∧ ((1 : Int) ≤ 0 ∨ (5 : Int) < 5 + 1) := by
  have h := C10_kernel_targets FloydSteinberg (by decide) ⟨28672, [(1, 0)]⟩
    (by decide) (1, 0) (by decide)
  exact ⟨h.2.2.2.1, h.2.2.2.2 5⟩

-- ## Error diffusion engine (ChunkyBitmap::RGB2P_ErrorDiffusion, chunky.cpp:407-471)

/-- The accumulated-error store `std::vector<std::array<int,3>> error[3]`:
indexed by row (0..2), column, channel (0..2).  Cells outside those index
ranges are phantom cells the C++ does not have; the embedding never writes
them. -/
abbrev Err := Nat → Nat → Nat → Int

/-- The three `error[...][xx][ch] += ...` statements of chunky.cpp:460-462
for one target cell. -/
def bump (e : Err) (row col : Nat) (rw gw bw : Int) : Err :=
  fun ρ ξ ch =>
    if ρ = row ∧ ξ = col then
      if ch = 0 then e ρ ξ ch + rw
      else if ch = 1 then e ρ ξ ch + gw
      else if ch = 2 then e ρ ξ ch + bw
      else e ρ ξ ch
    else e ρ ξ ch

/-- Inner target loop of chunky.cpp:455-464: each in-bounds target column
`x + dx` receives the weighted error; out-of-bounds targets are skipped. -/
def applyTargets (e : Err) (x W : Nat) (rw gw bw : Int) : List (Int × Int) → Err
  | [] => e
  | t :: rest =>
    applyTargets
      (if 0 ≤ (x : Int) + t.1 ∧ (x : Int) + t.1 < (W : Int) then
        bump e t.2.toNat ((x : Int) + t.1).toNat rw gw bw
      else e) x W rw gw bw rest

/-- Outer weight loop of chunky.cpp:449-465: for each kernel entry, the
residual times that entry's weight is applied to all its targets. -/
def applyKernel (e : Err) (x W : Nat) (r g b : Int) : List Diffuser → Err
  | [] => e
  | d :: rest =>
    applyKernel (applyTargets e x W (r * d.weight) (g * d.weight) (b * d.weight) d.targets)
      x W r g b rest

/-- One channel of chunky.cpp:438-440: source byte plus accumulated error
divided by 65536 (truncating int division), clamped to [0, 255].  `ch` is the
byte/channel index 0..2 of pixel number `p`. -/
def clampedChannel (srcB : Nat → Nat) (p : Nat) (e : Err) (x ch : Nat) : Int :=
  cclamp ((srcB (4 * p + ch) : Int) + Int.tdiv (e 0 x ch) 65536) 0 255

/-- The palette index chosen at chunky.cpp:441: full-palette NearestColor on
the clamped color. -/
def chosenIndex (pal : List ColorRegister) (srcB : Nat → Nat) (p : Nat) (e : Err)
    (x : Nat) : Nat :=
  NearestColor pal (clampedChannel srcB p e x 0) (clampedChannel srcB p e x 1)
    (clampedChannel srcB p e x 2) 0 pal.length

/-- Channel projection of a palette entry (red/green/blue for ch = 0/1/2). -/
def chanOf (c : ColorRegister) (ch : Nat) : Nat :=
  if ch = 0 then c.red else if ch = 1 then c.green else if ch = 2 then c.blue else 0

/-- The residual diffused at chunky.cpp:445-447: clamped channel minus the
chosen palette entry's channel (post-clamp by construction). -/
def diffResidual (pal : List ColorRegister) (srcB : Nat → Nat) (p : Nat) (e : Err)
    (x ch : Nat) : Int :=
  clampedChannel srcB p e x ch -
    (chanOf (pal.getD (chosenIndex pal srcB p e x) ⟨0, 0, 0⟩) ch : Int)

/-- Body of the per-pixel loop of chunky.cpp:426-465: returns the palette
index written to `dest[x]` and the updated error store.  `p` is the flat pixel
number (the `src` pointer advances 4 bytes per pixel across the whole image),
`x` the column. -/
def diffusePixel (pal : List ColorRegister) (kernel : List Diffuser) (W : Nat)
    (srcB : Nat → Nat) (p x : Nat) (e : Err) : Nat × Err :=
  let r := clampedChannel srcB p e x 0
  let g := clampedChannel srcB p e x 1
  let b := clampedChannel srcB p e x 2
  let c := NearestColor pal r g b 0 pal.length
  (c, applyKernel e x W (r - ((pal.getD c ⟨0, 0, 0⟩).red : Int))
        (g - ((pal.getD c ⟨0, 0, 0⟩).green : Int))
        (b - ((pal.getD c ⟨0, 0, 0⟩).blue : Int)) kernel)

/-- Row rotation of chunky.cpp:467-469: row 1 becomes row 0, row 2 becomes
row 1, row 2 is zero-filled. -/
def rotateErr (e : Err) : Err :=
  fun ρ ξ ch => if ρ < 2 then e (ρ + 1) ξ ch else 0

/-- The `for (x = 0; x < Width; ...)` loop of chunky.cpp:426: emits one
palette index per column (`dest[x] = c` stores into a `uint8_t`, hence
`% 256`) and threads the error store.  `rb` is the pixel number of the row's
first pixel; the fuel counts remaining columns. -/
def rowGo (pal : List ColorRegister) (kernel : List Diffuser) (W : Nat)
    (srcB : Nat → Nat) (rb : Nat) : Nat → Nat → Err → List Nat × Err
  | _, 0, e => ([], e)
  | x, n + 1, e =>
    let st := diffusePixel pal kernel W srcB (rb + x) x e
    let rest := rowGo pal kernel W srcB rb (x + 1) n st.2
    (st.1 % 256 :: rest.1, rest.2)

/-- The `for (y = Height; y > 0; --y)` loop of chunky.cpp:424-470. -/
def imageGo (pal : List ColorRegister) (kernel : List Diffuser) (W : Nat)
    (srcB : Nat → Nat) : Nat → Nat → Err → List Nat
  | _, 0, _ => []
  | y, n + 1, e =>
    let row := rowGo pal kernel W srcB (y * W) 0 W e
    row.1 ++ imageGo pal kernel W srcB (y + 1) n (rotateErr row.2)

/-- `ChunkyBitmap::RGB2P_ErrorDiffusion` (chunky.cpp:407-471): all three
error rows start zeroed; the output is the flat list of palette indices in
raster order. -/
def RGB2P_ErrorDiffusion (pal : List ColorRegister) (kernel : List Diffuser)
    (W H : Nat) (srcB : Nat → Nat) : List Nat :=
  imageGo pal kernel W srcB 0 H (fun _ _ _ => 0)

/-- Number of targets of one kernel entry that hit error cell `(ξ, ρ)` from
column `x`: the target must be in bounds (`0 ≤ x + dx < W`) and aimed at
column `ξ`, row offset `ρ`. -/
def targetHits (x W ξ ρ : Nat) (ts : List (Int × Int)) : Nat :=
  ts.countP (fun t => decide (0 ≤ (x : Int) + t.1 ∧ (x : Int) + t.1 < (W : Int) ∧
    (x : Int) + t.1 = (ξ : Int) ∧ t.2 = (ρ : Int)))

/-- Total kernel weight aimed at error cell `(ξ, ρ)` from column `x`. -/
def diffusionWeight (kernel : List Diffuser) (x W ξ ρ : Nat) : Int :=
  (kernel.map (fun d => d.weight * (targetHits x W ξ ρ d.targets : Int))).sum

/-- Per-channel amount helper for the three accumulator additions. -/
def chanAmt (rw gw bw : Int) (ch : Nat) : Int :=
  if ch = 0 then rw else if ch = 1 then gw else if ch = 2 then bw else 0

theorem bump_apply (e : Err) (row col : Nat) (rw gw bw : Int) (ρ ξ ch : Nat) :
    bump e row col rw gw bw ρ ξ ch =
      e ρ ξ ch + (if ρ = row ∧ ξ = col then chanAmt rw gw bw ch else 0) := by
  unfold bump chanAmt
  by_cases h : ρ = row ∧ ξ = col
  · rw [if_pos h, if_pos h]
    rcases ch with _ | _ | _ | ch <;> simp
  · rw [if_neg h, if_neg h, add_zero]

theorem applyTargets_apply (x W : Nat) (rw gw bw : Int) :
    ∀ (ts : List (Int × Int)) (e : Err), (∀ t ∈ ts, 0 ≤ t.2) →
    ∀ ρ ξ ch, applyTargets e x W rw gw bw ts ρ ξ ch =
      e ρ ξ ch + (targetHits x W ξ ρ ts : Int) * chanAmt rw gw bw ch := by
  intro ts
  induction ts with
  | nil =>
    intro e _ ρ ξ ch
    simp [applyTargets, targetHits]
  | cons t rest ih =>
    intro e hdy ρ ξ ch
    have hrest : ∀ u ∈ rest, 0 ≤ u.2 := fun u hu => hdy u (List.mem_cons_of_mem t hu)
    have hdt : 0 ≤ t.2 := hdy t (List.mem_cons_self t rest)
    rw [applyTargets, ih _ hrest]
    have hcp : targetHits x W ξ ρ (t :: rest) =
        targetHits x W ξ ρ rest +
          (if 0 ≤ (x : Int) + t.1 ∧ (x : Int) + t.1 < (W : Int) ∧
              (x : Int) + t.1 = (ξ : Int) ∧ t.2 = (ρ : Int) then 1 else 0) := by
      unfold targetHits
      rw [List.countP_cons]
      by_cases h : 0 ≤ (x : Int) + t.1 ∧ (x : Int) + t.1 < (W : Int) ∧
          (x : Int) + t.1 = (ξ : Int) ∧ t.2 = (ρ : Int)
      · rw [if_pos h, if_pos (by simpa using h)]
      · rw [if_neg h, if_neg (by simpa using h)]
    by_cases hin : 0 ≤ (x : Int) + t.1 ∧ (x : Int) + t.1 < (W : Int)
    · rw [if_pos hin, bump_apply, hcp]
      by_cases hhit : ρ = t.2.toNat ∧ ξ = ((x : Int) + t.1).toNat
      · rw [if_pos hhit]
        have hfull : 0 ≤ (x : Int) + t.1 ∧ (x : Int) + t.1 < (W : Int) ∧
            (x : Int) + t.1 = (ξ : Int) ∧ t.2 = (ρ : Int) := by
          obtain ⟨h1, h2⟩ := hhit
          exact ⟨hin.1, hin.2, by omega, by omega⟩
        rw [if_pos hfull]
        push_cast
        ring
      · rw [if_neg hhit]
        have hnot : ¬(0 ≤ (x : Int) + t.1 ∧ (x : Int) + t.1 < (W : Int) ∧
            (x : Int) + t.1 = (ξ : Int) ∧ t.2 = (ρ : Int)) := by
          intro hfull
          exact hhit ⟨by omega, by omega⟩
        rw [if_neg hnot]
        push_cast
        ring
    · rw [if_neg hin, hcp]
      have hnot : ¬(0 ≤ (x : Int) + t.1 ∧ (x : Int) + t.1 < (W : Int) ∧
          (x : Int) + t.1 = (ξ : Int) ∧ t.2 = (ρ : Int)) := by
        intro hfull
        exact hin ⟨hfull.1, hfull.2.1⟩
      rw [if_neg hnot]
      push_cast
      ring

theorem chanAmt_mul (r g b w : Int) (ch : Nat) :
    chanAmt (r * w) (g * w) (b * w) ch = chanAmt r g b ch * w := by
  unfold chanAmt
  rcases ch with _ | _ | _ | ch <;> simp

theorem applyKernel_apply (x W : Nat) (r g b : Int) :
    ∀ (ks : List Diffuser) (e : Err), (∀ d ∈ ks, ∀ t ∈ d.targets, 0 ≤ t.2) →
    ∀ ρ ξ ch, applyKernel e x W r g b ks ρ ξ ch =
      e ρ ξ ch + chanAmt r g b ch * diffusionWeight ks x W ξ ρ := by
  intro ks
  induction ks with
  | nil =>
    intro e _ ρ ξ ch
    simp [applyKernel, diffusionWeight]
  | cons d rest ih =>
    intro e hdy ρ ξ ch
    have hrest : ∀ u ∈ rest, ∀ t ∈ u.targets, 0 ≤ t.2 :=
      fun u hu => hdy u (List.mem_cons_of_mem d hu)
    have hd : ∀ t ∈ d.targets, 0 ≤ t.2 := hdy d (List.mem_cons_self d rest)
    rw [applyKernel, ih _ hrest, applyTargets_apply x W _ _ _ d.targets e hd,
      chanAmt_mul]
    have : diffusionWeight (d :: rest) x W ξ ρ =
        d.weight * (targetHits x W ξ ρ d.targets : Int) + diffusionWeight rest x W ξ ρ := by
      unfold diffusionWeight
      rw [List.map_cons, List.sum_cons]
    rw [this]
    ring

theorem cclamp_bounds (v : Int) : 0 ≤ cclamp v 0 255 ∧ cclamp v 0 255 ≤ 255 := by
  unfold cclamp
  split <;> [omega; skip]
  split <;> omega

/-- Out-of-row columns receive no weight. -/
theorem diffusionWeight_oob (ks : List Diffuser) (x W ξ ρ : Nat) (h : W ≤ ξ) :
    diffusionWeight ks x W ξ ρ = 0 := by
  unfold diffusionWeight
  induction ks with
  | nil => simp
  | cons d rest ih =>
    rw [List.map_cons, List.sum_cons, ih]
    have hz : targetHits x W ξ ρ d.targets = 0 := by
      unfold targetHits
      rw [List.countP_eq_zero]
      intro t _
      simp only [decide_eq_true_eq]
      intro hfull
      omega
    rw [hz]
    simp

-- ## Claim C2: per-pixel step of the error-diffusion loop

/-- C2: in `RGB2P_ErrorDiffusion`, each channel fed to the palette search is
the source channel plus accumulated error over 65536, clamped to [0, 255];
the emitted index is the full-palette NearestColor of that clamped color; the
new error store adds, at each cell `(ρ, ξ)` and channel `ch`, the post-clamp
residual times the total kernel weight of the in-bounds targets aimed there
(columns with `x + dx` outside `[0, W)` are dropped: any column at or past
`W` — and, by the same in-bounds filter, any negative one — receives
nothing). -/
theorem C2_error_diffusion_pixel (pal : List ColorRegister) (kernel : List Diffuser)
    (W : Nat) (srcB : Nat → Nat) (p x : Nat) (e : Err)
    (hk : ∀ d ∈ kernel, ∀ t ∈ d.targets, 0 ≤ t.2) :
    (∀ ch, 0 ≤ clampedChannel srcB p e x ch ∧ clampedChannel srcB p e x ch ≤ 255) ∧
    (diffusePixel pal kernel W srcB p x e).1 = chosenIndex pal srcB p e x ∧
    (∀ ρ ξ ch, ch < 3 →
      (diffusePixel pal kernel W srcB p x e).2 ρ ξ ch =
        e ρ ξ ch + diffResidual pal srcB p e x ch * diffusionWeight kernel x W ξ ρ) ∧
    (∀ ρ ξ ch, W ≤ ξ → (diffusePixel pal kernel W srcB p x e).2 ρ ξ ch = e ρ ξ ch) := by
  refine ⟨fun ch => cclamp_bounds _, rfl, ?_, ?_⟩
  · intro ρ ξ ch hch
    show applyKernel e x W _ _ _ kernel ρ ξ ch = _
    rw [applyKernel_apply x W _ _ _ kernel e hk]
    have hres : chanAmt
        (clampedChannel srcB p e x 0 -
          ((pal.getD (NearestColor pal (clampedChannel srcB p e x 0)
            (clampedChannel srcB p e x 1) (clampedChannel srcB p e x 2) 0 pal.length)
            ⟨0, 0, 0⟩).red : Int))
        (clampedChannel srcB p e x 1 -
          ((pal.getD (NearestColor pal (clampedChannel srcB p e x 0)
            (clampedChannel srcB p e x 1) (clampedChannel srcB p e x 2) 0 pal.length)
            ⟨0, 0, 0⟩).green : Int))
        (clampedChannel srcB p e x 2 -
          ((pal.getD (NearestColor pal (clampedChannel srcB p e x 0)
            (clampedChannel srcB p e x 1) (clampedChannel srcB p e x 2) 0 pal.length)
            ⟨0, 0, 0⟩).blue : Int))
        ch = diffResidual pal srcB p e x ch := by
      unfold chanAmt diffResidual chanOf chosenIndex
      rcases ch with _ | _ | _ | ch
      · simp
      · simp
      · simp
      · omega
    rw [hres]
  · intro ρ ξ ch hξ
    show applyKernel e x W _ _ _ kernel ρ ξ ch = _
    rw [applyKernel_apply x W _ _ _ kernel e hk, diffusionWeight_oob kernel x W ξ ρ hξ,
      mul_zero, add_zero]

/-- Error store that starts all-zero, used by witnesses. -/
def zeroErr : Err := fun _ _ _ => 0

/-- Source buffer for the C2 witness: pixel 0 is (9, 0, 0). -/
def C2src : Nat → Nat := fun i => if i = 0 then 9 else 0

/-- Witness for C2: one Floyd-Steinberg step on a 2-pixel row starting from
zero error; the right neighbour's red error cell receives 9 * 28672. -/
theorem C2_witness :
    (diffusePixel witnessPal FloydSteinberg 2 C2src 0 0 zeroErr).2 0 1 0 = 258048 := by
  have h := C2_error_diffusion_pixel witnessPal FloydSteinberg 2 C2src 0 0 zeroErr
    (by decide)
  rw [h.2.2.1 0 1 0 (by omega)]
  decide

-- ## RGB2P_BasicQuantize and RGBtoPalette (chunky.cpp:378-405)

/-- The pixel loop of `RGB2P_BasicQuantize` (chunky.cpp:400-404): fuel counts
remaining pixels, `s` is the current source byte offset (`src += 4` per
pixel); the store into the `uint8_t` destination truncates, hence `% 256`. -/
def basicGo (pal : List ColorRegister) (srcB : Nat → Nat) : Nat → Nat → List Nat
  | 0, _ => []
  | n + 1, s =>
    NearestColor pal (srcB s) (srcB (s + 1)) (srcB (s + 2)) 0 pal.length % 256 ::
      basicGo pal srcB n (s + 4)

/-- `ChunkyBitmap::RGB2P_BasicQuantize` (chunky.cpp:393-405). -/
def RGB2P_BasicQuantize (pal : List ColorRegister) (W H : Nat) (srcB : Nat → Nat) :
    List Nat :=
  basicGo pal srcB (W * H) 0

/-- `ChunkyBitmap::RGBtoPalette` (chunky.cpp:378-391): dither modes outside
`1..8` (the kernel table has 8 entries) select basic quantization, otherwise
kernel `dithermode - 1` drives error diffusion. -/
def RGBtoPalette (pal : List ColorRegister) (dithermode : Int) (W H : Nat)
    (srcB : Nat → Nat) : List Nat :=
  if dithermode ≤ 0 ∨ 8 < dithermode then RGB2P_BasicQuantize pal W H srcB
  else RGB2P_ErrorDiffusion pal (ErrorDiffusionKernels.getD (dithermode - 1).toNat [])
    W H srcB

/-- Spec-side reference for claim C4, following the spec's words: the result
of independently applying `NearestColor` over the full palette to each source
pixel, with no error carried between pixels. -/
def specIndependentNearest (pal : List ColorRegister) (W H : Nat)
    (srcB : Nat → Nat) : List Nat :=
  (List.range (W * H)).map (fun p =>
    NearestColor pal (srcB (4 * p)) (srcB (4 * p + 1)) (srcB (4 * p + 2)) 0 pal.length)

theorem basicGo_eq (pal : List ColorRegister) (srcB : Nat → Nat) :
    ∀ n s, basicGo pal srcB n s =
      (List.range n).map (fun i =>
        NearestColor pal (srcB (s + 4 * i)) (srcB (s + 4 * i + 1))
          (srcB (s + 4 * i + 2)) 0 pal.length % 256) := by
  intro n
  induction n with
  | zero => intro s; simp [basicGo]
  | succ n ih =>
    intro s
    rw [basicGo, List.range_succ_eq_map, List.map_cons, ih (s + 4), List.map_map]
    congr 1
    refine List.map_congr_left ?_
    intro i hi
    have h1 : s + 4 + 4 * i = s + 4 * (i + 1) := by ring
    rw [h1]
    rfl

/-- `NearestColor` over the full palette stays below `max 1 pal.length`. -/
theorem NearestColor_lt_max (pal : List ColorRegister) (r g b : Int) :
    NearestColor pal r g b 0 pal.length < max 1 pal.length := by
  rcases Nat.eq_zero_or_pos pal.length with h | h
  · rw [NearestColor_empty pal r g b 0 pal.length (by omega)]
    omega
  · have := (NearestColor_mem pal r g b 0 pal.length h).2
    omega

-- ## Claim C4: out-of-range dither modes reduce to independent NearestColor

set_option maxRecDepth 4000 in
/-- C4 counterexample: with a 257-entry palette whose only exact match is
entry 256, `RGBtoPalette` stores the chosen index into a `uint8_t`, so the
output byte is `256 % 256 = 0` while independent `NearestColor` yields 256:
the claimed pixel-for-pixel equality fails for palettes longer than 256. -/
theorem C4_counterexample_bigpal :
    RGBtoPalette (List.replicate 256 ⟨255, 255, 255⟩ ++ [⟨0, 0, 0⟩]) 0 1 1
        (fun _ => 0) ≠
      specIndependentNearest (List.replicate 256 ⟨255, 255, 255⟩ ++ [⟨0, 0, 0⟩]) 1 1
        (fun _ => 0) := by decide

/-- C4 (amended): for palettes of at most 256 entries (so the chosen index
survives the `uint8_t` store), `RGBtoPalette` with a dither mode that is
zero, negative or greater than 8 equals, pixel for pixel, independent
`NearestColor` over the full palette with no carried error. -/
theorem C4_basic_quantize_refines (pal : List ColorRegister) (m : Int) (W H : Nat)
    (srcB : Nat → Nat) (hm : m ≤ 0 ∨ 8 < m) (hlen : pal.length ≤ 256) :
    RGBtoPalette pal m W H srcB = specIndependentNearest pal W H srcB := by
  unfold RGBtoPalette
  rw [if_pos hm]
  unfold RGB2P_BasicQuantize specIndependentNearest
  rw [basicGo_eq]
  refine List.map_congr_left ?_
  intro p _
  have hz : (0 : Nat) + 4 * p = 4 * p := by ring
  rw [hz]
  have hlt := NearestColor_lt_max pal (srcB (4 * p)) (srcB (4 * p + 1)) (srcB (4 * p + 2))
  exact Nat.mod_eq_of_lt (by omega)

/-- Witness for C4 on a 1-by-1 black image against the two-color palette. -/
theorem C4_witness :
    RGBtoPalette witnessPal 0 1 1 (fun _ => 0) =
      specIndependentNearest witnessPal 1 1 (fun _ => 0) ∧
    RGBtoPalette witnessPal 0 1 1 (fun _ => 0) = [0] :=
  ⟨C4_basic_quantize_refines witnessPal 0 1 1 (fun _ => 0) (Or.inl (by norm_num))
      (by decide),
    by decide⟩

-- ## Claim C5: output bytes lie in [0, palette size)

theorem rowGo_mem_lt (pal : List ColorRegister) (kernel : List Diffuser) (W : Nat)
    (srcB : Nat → Nat) (rb : Nat) (hpal : 0 < pal.length) :
    ∀ (n x : Nat) (e : Err) (b : Nat),
      b ∈ (rowGo pal kernel W srcB rb x n e).1 → b < pal.length := by
  intro n
  induction n with
  | zero =>
    intro x e b hb
    simp [rowGo] at hb
  | succ n ih =>
    intro x e b hb
    rw [rowGo] at hb
    rcases List.mem_cons.mp hb with h | h
    · have hnc : (diffusePixel pal kernel W srcB (rb + x) x e).1 < pal.length :=
        (NearestColor_mem pal _ _ _ 0 pal.length hpal).2
      have : (diffusePixel pal kernel W srcB (rb + x) x e).1 % 256 ≤
          (diffusePixel pal kernel W srcB (rb + x) x e).1 := Nat.mod_le _ _
      omega
    · exact ih (x + 1) _ b h

theorem imageGo_mem_lt (pal : List ColorRegister) (kernel : List Diffuser) (W : Nat)
    (srcB : Nat → Nat) (hpal : 0 < pal.length) :
    ∀ (n y : Nat) (e : Err) (b : Nat),
      b ∈ imageGo pal kernel W srcB y n e → b < pal.length := by
  intro n
  induction n with
  | zero =>
    intro y e b hb
    simp [imageGo] at hb
  | succ n ih =>
    intro y e b hb
    rw [imageGo] at hb
    rcases List.mem_append.mp hb with h | h
    · exact rowGo_mem_lt pal kernel W srcB (y * W) hpal W 0 e b h
    · exact ih (y + 1) _ b h

/-- C5 counterexample: with an empty palette (behavior the spec itself calls
an open question) a 1-by-1 image still produces the byte 0, which cannot lie
in the empty range `[0, 0)`: the claim fails for "every palette". -/
theorem C5_counterexample_empty_pal :
    RGBtoPalette [] 0 1 1 (fun _ => 0) = [0] ∧
    ¬(∀ b ∈ RGBtoPalette [] 0 1 1 (fun _ => 0), b < ([] : List ColorRegister).length) := by
  decide

/-- C5 (amended): for every nonempty palette, every dither mode, and every
source, every byte of the indexed image returned by `RGBtoPalette` lies in
`[0, palette.size())`.  (The chosen index is below the palette length, and the
`uint8_t` truncation can only shrink it.) -/
theorem C5_output_in_range (pal : List ColorRegister) (m : Int) (W H : Nat)
    (srcB : Nat → Nat) (hpal : pal ≠ []) :
    ∀ b ∈ RGBtoPalette pal m W H srcB, b < pal.length := by
  have hlen : 0 < pal.length := List.length_pos.mpr hpal
  intro b hb
  unfold RGBtoPalette at hb
  by_cases hm : m ≤ 0 ∨ 8 < m
  · rw [if_pos hm] at hb
    unfold RGB2P_BasicQuantize at hb
    rw [basicGo_eq] at hb
    obtain ⟨p, _, hp⟩ := List.mem_map.mp hb
    have hlt := NearestColor_lt_max pal (srcB (0 + 4 * p)) (srcB (0 + 4 * p + 1))
      (srcB (0 + 4 * p + 2))
    have hmod : NearestColor pal (srcB (0 + 4 * p)) (srcB (0 + 4 * p + 1))
        (srcB (0 + 4 * p + 2)) 0 pal.length % 256 ≤
        NearestColor pal (srcB (0 + 4 * p)) (srcB (0 + 4 * p + 1))
          (srcB (0 + 4 * p + 2)) 0 pal.length := Nat.mod_le _ _
    omega
  · rw [if_neg hm] at hb
    exact imageGo_mem_lt pal _ W srcB hlen H 0 _ b hb

/-- Witness for C5: the single output byte of a 1-by-1 black image dithered
with Floyd-Steinberg (mode 1) against the two-color palette is in range. -/
theorem C5_witness : 0 < witnessPal.length :=
  C5_output_in_range witnessPal 1 1 1 (fun _ => 0) (by decide) 0 (by decide)

-- ## HAM reconstruction (ChunkyBitmap::HAM6toRGB / HAM8toRGB, chunky.cpp:233-288)

/-- One step of the HAM6 automaton (chunky.cpp:244-252): decode the low
nibble into `intensity = v | (v << 4)`, then switch on the high nibble:
`0x00` replaces the running color with `pal[*src]`, `0x10/0x20/0x30` replace
exactly the blue/red/green channel. -/
def ham6Step (pal : List ColorRegister) (color : ColorRegister) (s : Nat) :
    ColorRegister :=
  let intensity := (s &&& 0x0F) ||| ((s &&& 0x0F) <<< 4)
  if s &&& 0xF0 = 0x00 then pal.getD s ⟨0, 0, 0⟩
  else if s &&& 0xF0 = 0x10 then { color with blue := intensity }
  else if s &&& 0xF0 = 0x20 then { color with red := intensity }
  else if s &&& 0xF0 = 0x30 then { color with green := intensity }
  else color

/-- One step of the HAM8 automaton (chunky.cpp:273-281): decode the low six
bits into `intensity = (v << 2) | (v >> 4)`, then switch on the top two
bits. -/
def ham8Step (pal : List ColorRegister) (color : ColorRegister) (s : Nat) :
    ColorRegister :=
  let intensity := ((s &&& 0x3F) <<< 2) ||| ((s &&& 0x3F) >>> 4)
  if s &&& 0xC0 = 0x00 then pal.getD s ⟨0, 0, 0⟩
  else if s &&& 0xC0 = 0x40 then { color with blue := intensity }
  else if s &&& 0xC0 = 0x80 then { color with red := intensity }
  else if s &&& 0xC0 = 0xC0 then { color with green := intensity }
  else color

/-- The flat pixel loop of `HAM6toRGB`/`HAM8toRGB` (chunky.cpp:242-257 /
271-286): one iteration per source byte over the whole image in raster order,
emitting `dest[0..3] = (red, green, blue, 0xFF)` of the updated running
color.  The row structure does not appear in the loop at all. -/
def hamGo (step : ColorRegister → Nat → ColorRegister) :
    ColorRegister → List Nat → List Nat
  | _, [] => []
  | color, s :: rest =>
    let c := step color s
    c.red :: c.green :: c.blue :: 255 :: hamGo step c rest

/-- `ChunkyBitmap::HAM6toRGB` (chunky.cpp:233-259): the running color starts
as palette entry 0 and persists across the entire flat pixel list. -/
def HAM6toRGB (pal : List ColorRegister) (src : List Nat) : List Nat :=
  hamGo (ham6Step pal) (pal.getD 0 ⟨0, 0, 0⟩) src

/-- `ChunkyBitmap::HAM8toRGB` (chunky.cpp:262-288). -/
def HAM8toRGB (pal : List ColorRegister) (src : List Nat) : List Nat :=
  hamGo (ham8Step pal) (pal.getD 0 ⟨0, 0, 0⟩) src

/-- Pixel `k` of a HAM output is the fold of the automaton over the first
`k + 1` source bytes, rendered as an opaque RGBA quad. -/
theorem hamGo_pixel (step : ColorRegister → Nat → ColorRegister) :
    ∀ (src : List Nat) (color : ColorRegister) (k : Nat), k < src.length →
      ((hamGo step color src).drop (4 * k)).take 4 =
        [((src.take (k + 1)).foldl step color).red,
         ((src.take (k + 1)).foldl step color).green,
         ((src.take (k + 1)).foldl step color).blue, 255] := by
  intro src
  induction src with
  | nil =>
    intro color k hk
    simp at hk
  | cons s rest ih =>
    intro color k hk
    match k with
    | 0 =>
      simp [hamGo]
    | k + 1 =>
      have h4 : 4 * (k + 1) = 4 * k + 4 := by ring
      rw [hamGo, h4]
      have hdrop : ∀ (a1 a2 a3 a4 : Nat) (l : List Nat),
          (a1 :: a2 :: a3 :: a4 :: l).drop (4 * k + 4) = l.drop (4 * k) := by
        intro a1 a2 a3 a4 l
        have : 4 * k + 4 = k * 4 + 1 + 1 + 1 + 1 := by ring
        simp [this, List.drop_succ_cons]
        congr 1
        ring
      rw [hdrop]
      have htake : (s :: rest).take (k + 1 + 1) = s :: rest.take (k + 1) := rfl
      rw [htake, List.foldl_cons]
      exact ih (step color s) k (by simpa using hk)

/-- Folding one more byte: the state after `n + 1` bytes is one automaton
step applied to the state after `n` bytes. -/
theorem foldl_take_succ (step : ColorRegister → Nat → ColorRegister) :
    ∀ (l : List Nat) (n : Nat) (init : ColorRegister), n < l.length →
      (l.take (n + 1)).foldl step init =
        step ((l.take n).foldl step init) (l.getD n 0) := by
  intro l n init hn
  have hsome : l[n]? = some l[n] := List.getElem?_eq_getElem hn
  rw [List.take_succ, hsome, List.getD_eq_getElem l 0 hn]
  rw [show (some l[n]).toList = [l[n]] from rfl]
  rw [List.foldl_append, List.foldl_cons, List.foldl_nil]

/-- A HAM6 stream of nothing but base-color codes replays the palette: the
state after `k + 1` bytes is the palette entry named by byte `k`. -/
theorem ham6_allbase_fold (pal : List ColorRegister) :
    ∀ (src : List Nat) (c : ColorRegister) (k : Nat), k < src.length →
      (∀ s ∈ src, s &&& 0xF0 = 0) →
      (src.take (k + 1)).foldl (ham6Step pal) c = pal.getD (src.getD k 0) ⟨0, 0, 0⟩ := by
  intro src
  induction src with
  | nil =>
    intro c k hk _
    simp at hk
  | cons s rest ih =>
    intro c k hk hall
    have hs : s &&& 0xF0 = 0 := hall s (List.mem_cons_self s rest)
    match k with
    | 0 =>
      simp only [List.take, List.foldl_cons, List.foldl_nil, List.getD]
      simp [ham6Step, hs]
    | k + 1 =>
      have htake : (s :: rest).take (k + 1 + 1) = s :: rest.take (k + 1) := rfl
      rw [htake, List.foldl_cons]
      have : (s :: rest).getD (k + 1) 0 = rest.getD k 0 := rfl
      rw [this]
      exact ih (ham6Step pal c s) k (by simpa using hk)
        (fun u hu => hall u (List.mem_cons_of_mem s hu))

-- ## Claim C8: one running color across the whole image, emitted as RGBA

/-- C8: `HAM6toRGB` and `HAM8toRGB` maintain a single running color,
initialized to palette entry 0, threaded through the flat raster-order byte
list with no per-row reset: pixel `k` is exactly the fold of the automaton
over the first `k + 1` bytes, emitted as 4 bytes with alpha 0xFF.  A HAM6
stream consisting solely of base-color codes (high nibble 0) reproduces the
referenced palette entries exactly. -/
theorem C8_ham_running_color (pal : List ColorRegister) (src : List Nat) (k : Nat)
    (hk : k < src.length) :
    ((HAM6toRGB pal src).drop (4 * k)).take 4 =
      [((src.take (k + 1)).foldl (ham6Step pal) (pal.getD 0 ⟨0, 0, 0⟩)).red,
       ((src.take (k + 1)).foldl (ham6Step pal) (pal.getD 0 ⟨0, 0, 0⟩)).green,
       ((src.take (k + 1)).foldl (ham6Step pal) (pal.getD 0 ⟨0, 0, 0⟩)).blue, 255] ∧
    ((HAM8toRGB pal src).drop (4 * k)).take 4 =
      [((src.take (k + 1)).foldl (ham8Step pal) (pal.getD 0 ⟨0, 0, 0⟩)).red,
       ((src.take (k + 1)).foldl (ham8Step pal) (pal.getD 0 ⟨0, 0, 0⟩)).green,
       ((src.take (k + 1)).foldl (ham8Step pal) (pal.getD 0 ⟨0, 0, 0⟩)).blue, 255] ∧
    ((∀ s ∈ src, s &&& 0xF0 = 0) →
      ((HAM6toRGB pal src).drop (4 * k)).take 4 =
        [(pal.getD (src.getD k 0) ⟨0, 0, 0⟩).red,
         (pal.getD (src.getD k 0) ⟨0, 0, 0⟩).green,
         (pal.getD (src.getD k 0) ⟨0, 0, 0⟩).blue, 255]) := by
  refine ⟨hamGo_pixel (ham6Step pal) src _ k hk,
    hamGo_pixel (ham8Step pal) src _ k hk, ?_⟩
  intro hall
  unfold HAM6toRGB
  rw [hamGo_pixel (ham6Step pal) src (pal.getD 0 ⟨0, 0, 0⟩) k hk,
    ham6_allbase_fold pal src (pal.getD 0 ⟨0, 0, 0⟩) k hk hall]

/-- Palette and source used by the HAM witnesses: byte 0x01 selects palette
entry 1, byte 0x15 is modify-blue with nibble 5. -/
def hamPal : List ColorRegister :=
  [⟨1, 2, 3⟩, ⟨16, 32, 48⟩, ⟨0, 0, 0⟩, ⟨0, 0, 0⟩, ⟨0, 0, 0⟩, ⟨0, 0, 0⟩,
   ⟨0, 0, 0⟩, ⟨0, 0, 0⟩, ⟨0, 0, 0⟩, ⟨0, 0, 0⟩, ⟨0, 0, 0⟩, ⟨0, 0, 0⟩,
   ⟨0, 0, 0⟩, ⟨0, 0, 0⟩, ⟨0, 0, 0⟩, ⟨0, 0, 0⟩]

/-- Witness for C8 at pixel 1 of the stream [0x01, 0x02]. -/
theorem C8_witness :
    ((HAM6toRGB hamPal [1, 2]).drop 4).take 4 = [0, 0, 0, 255] := by
  have h := (C8_ham_running_color hamPal [1, 2] 1 (by decide)).2.2 (by decide)
  rw [show (4 : Nat) = 4 * 1 from rfl]
  rw [h]
  decide

-- ## Claim C9: modify-blue touches exactly the blue channel

/-- C9: a HAM6 byte with mode bits `0x10` replaces only the blue channel of
the running color with `(v << 4) | v` of its low nibble, leaving red and
green untouched; consequently a modify-blue pixel immediately following a
base-color pixel emits that palette entry's red and green channels unchanged
together with the decoded blue intensity. -/
theorem C9_ham6_modify_blue (pal : List ColorRegister) (c : ColorRegister)
    (s : Nat) (src : List Nat) (k : Nat)
    (hs : s &&& 0xF0 = 0x10)
    (hk : k + 1 < src.length)
    (hbase : src.getD k 0 &&& 0xF0 = 0)
    (hmod : src.getD (k + 1) 0 &&& 0xF0 = 0x10) :
    ham6Step pal c s =
      { red := c.red, green := c.green,
        blue := (s &&& 0x0F) ||| ((s &&& 0x0F) <<< 4) } ∧
    ((HAM6toRGB pal src).drop (4 * (k + 1))).take 4 =
      [(pal.getD (src.getD k 0) ⟨0, 0, 0⟩).red,
       (pal.getD (src.getD k 0) ⟨0, 0, 0⟩).green,
       (src.getD (k + 1) 0 &&& 0x0F) |||
         ((src.getD (k + 1) 0 &&& 0x0F) <<< 4), 255] := by
  have hstep : ∀ (c' : ColorRegister) (s' : Nat), s' &&& 0xF0 = 0x10 →
      ham6Step pal c' s' =
        { red := c'.red, green := c'.green,
          blue := (s' &&& 0x0F) ||| ((s' &&& 0x0F) <<< 4) } := by
    intro c' s' hs'
    simp [ham6Step, hs']
  refine ⟨hstep c s hs, ?_⟩
  have hfold1 : (src.take (k + 1)).foldl (ham6Step pal) (pal.getD 0 ⟨0, 0, 0⟩) =
      pal.getD (src.getD k 0) ⟨0, 0, 0⟩ := by
    rw [foldl_take_succ (ham6Step pal) src k (pal.getD 0 ⟨0, 0, 0⟩) (by omega)]
    simp only [ham6Step]
    rw [if_pos hbase]
  unfold HAM6toRGB
  rw [hamGo_pixel (ham6Step pal) src (pal.getD 0 ⟨0, 0, 0⟩) (k + 1) hk,
    foldl_take_succ (ham6Step pal) src (k + 1) (pal.getD 0 ⟨0, 0, 0⟩) hk, hfold1,
    hstep _ _ hmod]

/-- Witness for C9: stream [0x01, 0x15]; the modify-blue pixel keeps entry
1's red 16 and green 32 and sets blue to 0x55 = 85. -/
theorem C9_witness :
    ((HAM6toRGB hamPal [1, 21]).drop 4).take 4 = [16, 32, 85, 255] := by
  have h := (C9_ham6_modify_blue hamPal ⟨0, 0, 0⟩ 21 [1, 21] 0 (by decide)
    (by decide) (by decide) (by decide)).2
  rw [show (4 : Nat) = 4 * (0 + 1) from rfl]
  rw [h]
  decide

-- ## In-place expansion (ChunkyBitmap::Expand / Expand1/2/4, chunky.cpp:129-230)

/-- Point update of a pixel buffer (a store through the `dest` pointer). -/
def wr (buf : Nat → Nat) (i v : Nat) : Nat → Nat :=
  fun j => if j = i then v else buf j

/-- Inner replication loop `for (xx = scalex; xx > 0; --xx) *--dest = src[sx]`
(chunky.cpp:164-165): writes the source pixel at `srcIdx` into the `xx` cells
below `d` (in descending order, reading the current buffer each time). -/
def hxx : (Nat → Nat) → Nat → Nat → Nat → (Nat → Nat) × Nat
  | buf, _, d, 0 => (buf, d)
  | buf, srcIdx, d, xx + 1 => hxx (wr buf (d - 1) (buf srcIdx)) srcIdx (d - 1) xx

/-- Horizontal expansion loop `for (sx = srcwidth - 1; sx >= 0; --sx)`
(chunky.cpp:163-165): replicates each source pixel of the row starting at
`S`, right to left, `scalex` times each, ending just below `d`. -/
def hsx : (Nat → Nat) → Nat → Nat → Nat → Nat → (Nat → Nat) × Nat
  | buf, _, d, _, 0 => (buf, d)
  | buf, S, d, scalex, sx + 1 =>
    hsx (hxx buf (S + sx) d scalex).1 S (hxx buf (S + sx) d scalex).2 scalex sx

/-- `memcpy(dst, src, n pixels)` on the shared buffer: reads come from the
pre-copy state (the C++ only ever copies row-aligned regions that are
disjoint or identical). -/
def copyRow (buf : Nat → Nat) (dst src n : Nat) : Nat → Nat :=
  fun j => if dst ≤ j ∧ j < dst + n then buf (src + (j - dst)) else buf j

/-- Vertical replication loop `for (; yy > 0; --yy, dest -= Width)
memcpy(dest - Width, ysrc, Pitch)` (chunky.cpp:173-174), in pixel units. -/
def vloop : (Nat → Nat) → Nat → Nat → Nat → Nat → (Nat → Nat) × Nat
  | buf, _, d, _, 0 => (buf, d)
  | buf, ysrc, d, W, yy + 1 => vloop (copyRow buf (d - W) ysrc W) ysrc (d - W) W yy

/-- Body of one source-row iteration of Expand1/2/4 (chunky.cpp:153-175):
horizontal expansion (skipped when `scalex == 1`, in which case the source
row itself is the copy source) followed by the vertical copies. -/
def rowIter (buf : Nat → Nat) (S d scalex scaley srcwidth W : Nat) :
    (Nat → Nat) × Nat :=
  if scalex ≠ 1 then
    vloop (hsx buf S d scalex srcwidth).1 (hsx buf S d scalex srcwidth).2
      (hsx buf S d scalex srcwidth).2 W (scaley - 1)
  else
    vloop buf S d W scaley

/-- Outer loop `for (sy = srcheight; sy > 0; --sy, src -= Width)`
(chunky.cpp:153). -/
def outerLoop : (Nat → Nat) → Nat → Nat → Nat → Nat → Nat → Nat → Nat → (Nat → Nat)
  | buf, _, _, _, _, _, _, 0 => buf
  | buf, S, d, scalex, scaley, srcwidth, W, n + 1 =>
    outerLoop (rowIter buf S d scalex scaley srcwidth W).1 (S - W)
      (rowIter buf S d scalex scaley srcwidth W).2 scalex scaley srcwidth W n

/-- `ChunkyBitmap::Expand` (chunky.cpp:131-149) in pixel units: a no-op for
scale 1x1, otherwise `src` starts at the last source row
`(srcheight - 1) * W` and `dest` just past the end `H * W`.  The three
bodies Expand1/Expand2/Expand4 (chunky.cpp:151-230) are textually identical
up to the pixel type (1, 2 or 4 bytes), so a single pixel-level embedding
covers all three pixel widths. -/
def Expand (buf : Nat → Nat) (W H scalex scaley : Nat) : Nat → Nat :=
  if scalex = 1 ∧ scaley = 1 then buf
  else outerLoop buf ((H / scaley - 1) * W) (H * W) scalex scaley (W / scalex) W (H / scaley)

theorem hxx_spec : ∀ (xx : Nat) (buf : Nat → Nat) (srcIdx d : Nat),
    srcIdx + xx ≤ d →
    (hxx buf srcIdx d xx).2 = d - xx ∧
    ∀ j, (hxx buf srcIdx d xx).1 j =
      if d - xx ≤ j ∧ j < d then buf srcIdx else buf j := by
  intro xx
  induction xx with
  | zero =>
    intro buf srcIdx d _
    refine ⟨by simp [hxx], ?_⟩
    intro j
    rw [hxx]
    by_cases h : d - 0 ≤ j ∧ j < d
    · omega
    · rw [if_neg h]
  | succ xx ih =>
    intro buf srcIdx d hle
    rw [hxx]
    have hle' : srcIdx + xx ≤ d - 1 := by omega
    obtain ⟨ih2, ih1⟩ := ih (wr buf (d - 1) (buf srcIdx)) srcIdx (d - 1) hle'
    refine ⟨by omega, ?_⟩
    intro j
    rw [ih1 j]
    have hsv : wr buf (d - 1) (buf srcIdx) srcIdx = buf srcIdx := by
      unfold wr
      by_cases h : srcIdx = d - 1
      · rw [if_pos h, h]
      · rw [if_neg h]
    by_cases h : d - (xx + 1) ≤ j ∧ j < d
    · rw [if_pos h]
      by_cases h2 : d - 1 - xx ≤ j ∧ j < d - 1
      · rw [if_pos h2, hsv]
      · rw [if_neg h2]
        unfold wr
        rw [if_pos (by omega)]
    · rw [if_neg h]
      rw [if_neg (by omega)]
      unfold wr
      rw [if_neg (by omega)]

theorem hsx_spec : ∀ (sx : Nat) (buf : Nat → Nat) (S d scalex : Nat),
    1 ≤ scalex → S + sx * scalex ≤ d → S + sx ≤ d - sx * scalex + sx →
    (hsx buf S d scalex sx).2 = d - sx * scalex ∧
    ∀ j, (hsx buf S d scalex sx).1 j =
      if d - sx * scalex ≤ j ∧ j < d then
        buf (S + (j - (d - sx * scalex)) / scalex)
      else buf j := by
  intro sx
  induction sx with
  | zero =>
    intro buf S d scalex _ _ _
    refine ⟨by simp [hsx], ?_⟩
    intro j
    rw [hsx]
    by_cases h : d - 0 * scalex ≤ j ∧ j < d
    · omega
    · rw [if_neg h]
  | succ sx ih =>
    intro buf S d scalex hsc hle hS
    rw [hsx]
    have hmul : (sx + 1) * scalex = sx * scalex + scalex := by ring
    have hsxle : sx ≤ sx * scalex := Nat.le_mul_of_pos_right sx (by omega)
    have hxxle : (S + sx) + scalex ≤ d := by omega
    obtain ⟨hx2, hx1⟩ := hxx_spec scalex buf (S + sx) d hxxle
    rw [hx2]
    have hle' : S + sx * scalex ≤ d - scalex := by omega
    have hS' : S + sx ≤ (d - scalex) - sx * scalex + sx := by omega
    obtain ⟨ihd, ihv⟩ := ih (hxx buf (S + sx) d scalex).1 S (d - scalex) scalex hsc hle' hS'
    have hbase : d - scalex - sx * scalex = d - (sx + 1) * scalex := by omega
    rw [hbase] at ihd ihv
    refine ⟨by omega, ?_⟩
    intro j
    rw [ihv j]
    by_cases h2 : d - (sx + 1) * scalex ≤ j ∧ j < d - scalex
    · rw [if_pos h2, hx1]
      have hq : (j - (d - (sx + 1) * scalex)) / scalex < sx := by
        apply Nat.div_lt_of_lt_mul
        rw [Nat.mul_comm scalex sx]
        omega
      rw [if_neg (by omega : ¬(d - scalex ≤ S + (j - (d - (sx + 1) * scalex)) / scalex ∧
        S + (j - (d - (sx + 1) * scalex)) / scalex < d))]
      rw [if_pos (by omega : d - (sx + 1) * scalex ≤ j ∧ j < d)]
    · rw [if_neg h2, hx1]
      by_cases h3 : d - scalex ≤ j ∧ j < d
      · rw [if_pos h3, if_pos (by omega : d - (sx + 1) * scalex ≤ j ∧ j < d)]
        have hj : j - (d - (sx + 1) * scalex) = (j - (d - scalex)) + sx * scalex := by
          omega
        rw [hj, Nat.add_mul_div_right _ _ (by omega : 0 < scalex),
          Nat.div_eq_of_lt (by omega : j - (d - scalex) < scalex)]
        congr 1
        omega
      · rw [if_neg h3, if_neg (by omega : ¬(d - (sx + 1) * scalex ≤ j ∧ j < d))]

theorem vloop_spec : ∀ (yy : Nat) (buf : Nat → Nat) (ysrc d W : Nat),
    0 < W → (ysrc + yy * W ≤ d ∨ d ≤ ysrc) → yy * W ≤ d →
    (vloop buf ysrc d W yy).2 = d - yy * W ∧
    ∀ j, (vloop buf ysrc d W yy).1 j =
      if d - yy * W ≤ j ∧ j < d then buf (ysrc + (j - (d - yy * W)) % W)
      else buf j := by
  intro yy
  induction yy with
  | zero =>
    intro buf ysrc d W _ _ _
    refine ⟨by simp [vloop], ?_⟩
    intro j
    rw [vloop]
    rw [if_neg (by omega : ¬(d - 0 * W ≤ j ∧ j < d))]
  | succ yy ih =>
    intro buf ysrc d W hW hcond hle
    rw [vloop]
    have hmul : (yy + 1) * W = yy * W + W := by ring
    have hcopy : ∀ jj, copyRow buf (d - W) ysrc W jj =
        if d - W ≤ jj ∧ jj < d then buf (ysrc + (jj - (d - W))) else buf jj := by
      intro jj
      unfold copyRow
      by_cases h : d - W ≤ jj ∧ jj < d - W + W
      · rw [if_pos h, if_pos (by omega)]
      · rw [if_neg h, if_neg (by omega)]
    have hy0 : yy * W = 0 ∨ W ≤ yy * W := by
      rcases Nat.eq_zero_or_pos yy with h | h
      · left; rw [h, Nat.zero_mul]
      · right; exact Nat.le_mul_of_pos_left W h
    have hcond' : ysrc + yy * W ≤ d - W ∨ d - W ≤ ysrc := by
      rcases hcond with h | h
      · left; omega
      · right; omega
    obtain ⟨ihd, ihv⟩ := ih (copyRow buf (d - W) ysrc W) ysrc (d - W) W hW hcond'
      (by omega)
    have hbase : d - W - yy * W = d - (yy + 1) * W := by omega
    rw [hbase] at ihd ihv
    refine ⟨by omega, ?_⟩
    intro j
    rw [ihv j]
    by_cases h2 : d - (yy + 1) * W ≤ j ∧ j < d - W
    · rw [if_pos h2, hcopy]
      have hr : (j - (d - (yy + 1) * W)) % W < W := Nat.mod_lt _ hW
      have hno : ¬(d - W ≤ ysrc + (j - (d - (yy + 1) * W)) % W ∧
          ysrc + (j - (d - (yy + 1) * W)) % W < d) := by
        rcases hcond with h | h
        · rcases hy0 with h0 | h0
          · omega
          · intro hcon
            omega
        · intro hcon
          omega
      rw [if_neg hno]
      rw [if_pos (by omega : d - (yy + 1) * W ≤ j ∧ j < d)]
    · rw [if_neg h2, hcopy]
      by_cases h3 : d - W ≤ j ∧ j < d
      · rw [if_pos h3, if_pos (by omega : d - (yy + 1) * W ≤ j ∧ j < d)]
        have hjw : j - (d - (yy + 1) * W) = (j - (d - W)) + yy * W := by omega
        rw [hjw, Nat.add_mul_mod_self_right, Nat.mod_eq_of_lt (by omega)]
      · rw [if_neg h3, if_neg (by omega : ¬(d - (yy + 1) * W ≤ j ∧ j < d))]

theorem rowIter_spec (buf : Nat → Nat) (S d scalex scaley srcwidth W : Nat)
    (hsc : 1 ≤ scalex) (hsy : 1 ≤ scaley) (hW : W = srcwidth * scalex)
    (hWpos : 0 < W) (hle : S + scaley * W ≤ d) :
    (rowIter buf S d scalex scaley srcwidth W).2 = d - scaley * W ∧
    ∀ j, (rowIter buf S d scalex scaley srcwidth W).1 j =
      if d - scaley * W ≤ j ∧ j < d then
        buf (S + ((j - (d - scaley * W)) % W) / scalex)
      else buf j := by
  have hWsy : W ≤ scaley * W := Nat.le_mul_of_pos_left W (by omega)
  have hms : (scaley - 1) * W + W = scaley * W := by
    rw [Nat.sub_one_mul]
    omega
  unfold rowIter
  by_cases hx1 : scalex ≠ 1
  · rw [if_pos hx1]
    have hsle : S + srcwidth * scalex ≤ d := by omega
    have hS2 : S + srcwidth ≤ d - srcwidth * scalex + srcwidth := by
      have : srcwidth ≤ srcwidth * scalex := Nat.le_mul_of_pos_right srcwidth (by omega)
      omega
    obtain ⟨hh2, hh1⟩ := hsx_spec srcwidth buf S d scalex hsc hsle hS2
    rw [hh2]
    obtain ⟨hv2, hv1⟩ := vloop_spec (scaley - 1) (hsx buf S d scalex srcwidth).1
      (d - srcwidth * scalex) (d - srcwidth * scalex) W hWpos (Or.inr (le_refl _))
      (by omega)
    refine ⟨by omega, ?_⟩
    intro j
    rw [hv1 j]
    by_cases h2 : d - srcwidth * scalex - (scaley - 1) * W ≤ j ∧ j < d - srcwidth * scalex
    · rw [if_pos h2, hh1]
      have hr : (j - (d - srcwidth * scalex - (scaley - 1) * W)) % W < W :=
        Nat.mod_lt _ hWpos
      rw [if_pos (by omega : d - srcwidth * scalex ≤
          d - srcwidth * scalex + (j - (d - srcwidth * scalex - (scaley - 1) * W)) % W ∧
          d - srcwidth * scalex + (j - (d - srcwidth * scalex - (scaley - 1) * W)) % W < d)]
      rw [if_pos (by omega : d - scaley * W ≤ j ∧ j < d)]
      congr 1
      have e1 : d - srcwidth * scalex + (j - (d - srcwidth * scalex - (scaley - 1) * W)) % W -
          (d - srcwidth * scalex) = (j - (d - srcwidth * scalex - (scaley - 1) * W)) % W := by
        omega
      rw [e1]
      have e2 : d - srcwidth * scalex - (scaley - 1) * W = d - scaley * W := by omega
      rw [e2]
    · rw [if_neg h2, hh1]
      by_cases h3 : d - srcwidth * scalex ≤ j ∧ j < d
      · rw [if_pos h3, if_pos (by omega : d - scaley * W ≤ j ∧ j < d)]
        congr 1
        have hjw : j - (d - scaley * W) = (j - (d - srcwidth * scalex)) + (scaley - 1) * W := by
          omega
        rw [hjw, Nat.add_mul_mod_self_right, Nat.mod_eq_of_lt (by omega)]
      · rw [if_neg h3, if_neg (by omega : ¬(d - scaley * W ≤ j ∧ j < d))]
  · rw [if_neg hx1]
    push_neg at hx1
    obtain ⟨hv2, hv1⟩ := vloop_spec scaley buf S d W hWpos (Or.inl (by omega))
      (by omega)
    refine ⟨hv2, ?_⟩
    intro j
    rw [hv1 j]
    by_cases h2 : d - scaley * W ≤ j ∧ j < d
    · rw [if_pos h2, if_pos h2, hx1, Nat.div_one]
    · rw [if_neg h2, if_neg h2]

theorem outerLoop_spec (scalex scaley srcwidth W : Nat)
    (hsc : 1 ≤ scalex) (hsy : 1 ≤ scaley) (hW : W = srcwidth * scalex)
    (hWpos : 0 < W) :
    ∀ (n : Nat) (buf : Nat → Nat) (j : Nat),
      outerLoop buf ((n - 1) * W) (n * scaley * W) scalex scaley srcwidth W n j =
        if j < n * scaley * W then buf ((j / W / scaley) * W + (j % W) / scalex)
        else buf j := by
  intro n
  induction n with
  | zero =>
    intro buf j
    rw [outerLoop]
    rw [if_neg (by omega : ¬(j < 0 * scaley * W))]
  | succ n ih =>
    intro buf j
    simp only [Nat.add_sub_cancel]
    rw [outerLoop]
    have hscy : 0 < scaley * W := by
      have := Nat.le_mul_of_pos_left W (show 0 < scaley by omega)
      omega
    have hrow : n * W + scaley * W ≤ (n + 1) * scaley * W := by
      have h1 : n * W ≤ n * (scaley * W) := Nat.mul_le_mul_left n
        (Nat.le_mul_of_pos_left W (by omega))
      have h2 : n * (scaley * W) = n * scaley * W := by ring
      have h3 : (n + 1) * scaley * W = n * scaley * W + scaley * W := by ring
      omega
    have hd : (n + 1) * scaley * W - scaley * W = n * scaley * W := by
      have : (n + 1) * scaley * W = n * scaley * W + scaley * W := by ring
      omega
    have hS : n * W - W = (n - 1) * W := by
      rw [Nat.sub_one_mul]
    obtain ⟨hr2, hr1⟩ := rowIter_spec buf (n * W) ((n + 1) * scaley * W) scalex scaley
      srcwidth W hsc hsy hW hWpos hrow
    rw [hd] at hr1
    rw [hr2, hd, hS, ih _ j]
    have hstep : (n + 1) * scaley * W = n * scaley * W + scaley * W := by ring
    by_cases hj1 : j < n * scaley * W
    · rw [if_pos hj1, if_pos (by omega : j < (n + 1) * scaley * W)]
      have h1 : (j / W / scaley) * W ≤ (j / W) * W :=
        Nat.mul_le_mul_right W (Nat.div_le_self _ _)
      have h2 : (j % W) / scalex ≤ j % W := Nat.div_le_self _ _
      have h3 : (j / W) * W + j % W = j := by
        rw [Nat.mul_comm]
        exact Nat.div_add_mod j W
      have h4 : j % W < W := Nat.mod_lt _ hWpos
      rw [hr1]
      rw [if_neg (by omega : ¬(n * scaley * W ≤ (j / W / scaley) * W + (j % W) / scalex ∧
        (j / W / scaley) * W + (j % W) / scalex < (n + 1) * scaley * W))]
    · rw [if_neg hj1]
      by_cases hj2 : j < (n + 1) * scaley * W
      · obtain ⟨t, rfl⟩ : ∃ t, j = t + n * scaley * W := ⟨j - n * scaley * W, by omega⟩
        rw [if_pos hj2, hr1, if_pos (by omega : n * scaley * W ≤ t + n * scaley * W ∧
          t + n * scaley * W < (n + 1) * scaley * W)]
        congr 1
        have htlt : t < scaley * W := by omega
        have htq : t / W < scaley := by
          apply Nat.div_lt_of_lt_mul
          have hc : W * scaley = scaley * W := Nat.mul_comm W scaley
          omega
        rw [Nat.add_sub_cancel, Nat.add_mul_div_right _ _ hWpos,
          Nat.add_mul_div_right _ _ (show 0 < scaley by omega),
          Nat.div_eq_of_lt htq, Nat.add_mul_mod_self_right, Nat.zero_add]
      · rw [if_neg hj2, hr1, if_neg (by omega : ¬(n * scaley * W ≤ j ∧
          j < (n + 1) * scaley * W))]

-- ## Claim C6: Expand correctness

/-- C6: `Expand(1,1)` is the identity on the buffer; and for `scalex, scaley
≥ 1` with the precondition that the declared `W × H` are the scaled
dimensions (`W = sw * scalex`, `H = sh * scaley`) and the unscaled source
occupies the first `sw` pixel slots of each of the first `sh` rows, every
destination pixel of the block `[x*scalex, (x+1)*scalex) × [y*scaley,
(y+1)*scaley)` equals the source pixel at `(x, y)` after the in-place
expansion.  The pixel-level embedding covers all three pixel widths (1, 2
and 4 bytes), whose loop bodies are identical. -/
theorem C6_expand_block (buf : Nat → Nat) (W H scalex scaley sw sh x y dx dy : Nat)
    (hsc : 1 ≤ scalex) (hsy : 1 ≤ scaley)
    (hW : W = sw * scalex) (hH : H = sh * scaley)
    (hx : x < sw) (hy : y < sh) (hdx : dx < scalex) (hdy : dy < scaley) :
    Expand buf W H 1 1 = buf ∧
    Expand buf W H scalex scaley ((y * scaley + dy) * W + (x * scalex + dx)) =
      buf (y * W + x) := by
  have hWpos : 0 < W := by
    have := Nat.mul_pos (show 0 < sw by omega) (show 0 < scalex by omega)
    omega
  constructor
  · unfold Expand
    rw [if_pos ⟨rfl, rfl⟩]
  · unfold Expand
    by_cases h11 : scalex = 1 ∧ scaley = 1
    · rw [if_pos h11]
      obtain ⟨e1, e2⟩ := h11
      subst e1; subst e2
      have hdx0 : dx = 0 := by omega
      have hdy0 : dy = 0 := by omega
      subst hdx0; subst hdy0
      congr 1
      have ey : y * 1 + 0 = y := by omega
      rw [ey]
      have ex : x * 1 + 0 = x := by omega
      rw [ex]
    · rw [if_neg h11]
      have hsw : W / scalex = sw := by
        rw [hW]; exact Nat.mul_div_cancel sw (by omega)
      have hsh : H / scaley = sh := by
        rw [hH]; exact Nat.mul_div_cancel sh (by omega)
      have hHW : H * W = sh * scaley * W := by rw [hH]
      rw [hsw, hsh, hHW,
        outerLoop_spec scalex scaley sw W hsc hsy hW hWpos sh buf _]
      have hin : (y * scaley + dy) * W + (x * scalex + dx) < sh * scaley * W := by
        have h1 : y * scaley + dy + 1 ≤ sh * scaley := by
          have h2 : (y + 1) * scaley ≤ sh * scaley :=
            Nat.mul_le_mul_right scaley (by omega)
          have h3 : (y + 1) * scaley = y * scaley + scaley := by ring
          omega
        have h4 : (y * scaley + dy + 1) * W ≤ (sh * scaley) * W :=
          Nat.mul_le_mul_right W h1
        have h5 : (y * scaley + dy + 1) * W = (y * scaley + dy) * W + W := by ring
        have h6 : x * scalex + dx < W := by
          have h7 : (x + 1) * scalex ≤ sw * scalex :=
            Nat.mul_le_mul_right scalex (by omega)
          have h8 : (x + 1) * scalex = x * scalex + scalex := by ring
          omega
        have h9 : sh * scaley * W = (sh * scaley) * W := by ring
        omega
      rw [if_pos hin]
      have h6 : x * scalex + dx < W := by
        have h7 : (x + 1) * scalex ≤ sw * scalex :=
          Nat.mul_le_mul_right scalex (by omega)
        have h8 : (x + 1) * scalex = x * scalex + scalex := by ring
        omega
      have hidx : (y * scaley + dy) * W + (x * scalex + dx) =
          (x * scalex + dx) + (y * scaley + dy) * W := by ring
      rw [hidx, Nat.add_mul_div_right _ _ hWpos, Nat.add_mul_mod_self_right,
        Nat.div_eq_of_lt h6, Nat.mod_eq_of_lt h6]
      have hdy2 : (y * scaley + dy) / scaley = y := by
        have : y * scaley + dy = dy + y * scaley := by ring
        rw [this, Nat.add_mul_div_right _ _ (show 0 < scaley by omega),
          Nat.div_eq_of_lt hdy]
        omega
      have hdx2 : (x * scalex + dx) / scalex = x := by
        have : x * scalex + dx = dx + x * scalex := by ring
        rw [this, Nat.add_mul_div_right _ _ (show 0 < scalex by omega),
          Nat.div_eq_of_lt hdx]
        omega
      rw [Nat.zero_add, hdy2, hdx2]

/-- Witness for C6: a 2-by-1 source expanded 2x2 in a 4-by-2 buffer; the
destination pixel at (3, 1) equals source pixel (1, 0). -/
theorem C6_witness :
    Expand (fun i => if i = 0 then 7 else if i = 1 then 9 else 0) 4 2 1 1 =
        (fun i => if i = 0 then 7 else if i = 1 then 9 else 0) ∧
    Expand (fun i => if i = 0 then 7 else if i = 1 then 9 else 0) 4 2 2 2
        ((0 * 2 + 1) * 4 + (1 * 2 + 1)) =
      (fun i => if i = 0 then 7 else if i = 1 then 9 else 0) (0 * 4 + 1) :=
  C6_expand_block (fun i => if i = 0 then 7 else if i = 1 then 9 else 0)
    4 2 2 2 2 1 1 0 1 1 (by decide) (by decide) (by decide) (by decide)
    (by decide) (by decide) (by decide) (by decide)

-- ## Planar-to-chunky conversion (PlanarBitmap::ToChunky, planar.cpp:100-152)

/-- Bit `bitIdx` of plane `i`'s byte at offset `byteOff`:
`(Planes[i][byte] >> bit) & 1` with `Planes[i] = PlaneData + i * srcstep`
and `srcstep = Pitch * Height` (planar.cpp:43 and 128). -/
def planeBit (pd : Nat → Nat) (srcstep byteOff bitIdx i : Nat) : Nat :=
  (pd (i * srcstep + byteOff) >>> bitIdx) &&& 1

/-- The bit-serial accumulation loop
`for (i = NumPlanes - 1; i >= 0; --i) pixel = (pixel << 1) | bit(i)`
(planar.cpp:117-120, 142-145): plane `numPlanes - 1` enters first, so plane 0
ends up in the least significant bit. -/
def serialGo (pd : Nat → Nat) (srcstep byteOff bitIdx : Nat) : Nat → Nat → Nat
  | 0, acc => acc
  | i + 1, acc =>
    serialGo pd srcstep byteOff bitIdx i
      ((acc <<< 1) ||| planeBit pd srcstep byteOff bitIdx i)

/-- The bit-serial pixel value (the reference method of the disabled
planar.cpp:108-124 block, also used live by the overflow loop). -/
def serialPixel (pd : Nat → Nat) (srcstep numPlanes byteOff bitIdx : Nat) : Nat :=
  serialGo pd srcstep byteOff bitIdx numPlanes 0

/-- Modelled from the spec: `rotate8x8` is declared in iff2gif.h and called at
planar.cpp:134, but its definition is not under src/.  Per the spec it is a
byte transpose ("rotate 8x8") handling 8 horizontally-adjacent pixels per
group of 8 source bit-columns, "equivalent to, but faster than, the
bit-serial method": output byte `k` collects bit `7 - k` of one byte from
each of the 8 planes (the allocator always provides 8 zero-filled planes),
plane `i` contributing bit `i`. -/
def rotate8x8Byte (pd : Nat → Nat) (srcstep srcOff k : Nat) : Nat :=
  ((List.range 8).map (fun i => planeBit pd srcstep srcOff (7 - k) i <<< i)).sum

/-- The 8-byte store performed by `rotate8x8(src, srcstep, out, 1)`. -/
def rot8Write (pd : Nat → Nat) (srcstep srcOff : Nat) (dest : Nat → Nat)
    (o : Nat) : Nat → Nat :=
  fun j => if o ≤ j ∧ j < o + 8 then rotate8x8Byte pd srcstep srcOff (j - o) else dest j

/-- Fast loop `for (x = 0; x < Width >> 3; ++x, out += 8)` (planar.cpp:132-135). -/
def tcFastGo (pd : Nat → Nat) (srcstep inOff : Nat) :
    (Nat → Nat) → Nat → Nat → Nat → (Nat → Nat)
  | dest, _, _, 0 => dest
  | dest, o, x, c + 1 =>
    tcFastGo pd srcstep inOff (rot8Write pd srcstep (inOff + x) dest o) (o + 8)
      (x + 1) c

/-- Overflow loop `for (x <<= 3; x < Width; ++x)` (planar.cpp:136-147): the
byte offset stays at `in + (Width >> 3)` and the bit index is `7 - (x & 7)`. -/
def tcTailGo (pd : Nat → Nat) (srcstep numPlanes byteOff : Nat) :
    (Nat → Nat) → Nat → Nat → Nat → (Nat → Nat)
  | dest, _, _, 0 => dest
  | dest, o, x, c + 1 =>
    tcTailGo pd srcstep numPlanes byteOff
      (wr dest o (serialPixel pd srcstep numPlanes byteOff (7 - (x &&& 7))))
      (o + 1) (x + 1) c

/-- Row loop of the `NumPlanes ≤ 8` branch (planar.cpp:129-150): per row the
fast path covers the first `8 * (W >> 3)` columns, the overflow loop the
remaining ones, then `out += destextrawidth` and `in += Pitch`. -/
def tcRows (pd : Nat → Nat) (srcstep numPlanes W extra Pitch : Nat) :
    (Nat → Nat) → Nat → Nat → Nat → (Nat → Nat)
  | dest, _, _, 0 => dest
  | dest, inOff, o, r + 1 =>
    tcRows pd srcstep numPlanes W extra Pitch
      (tcTailGo pd srcstep numPlanes (inOff + (W >>> 3))
        (tcFastGo pd srcstep inOff dest o 0 (W >>> 3))
        (o + ((W >>> 3) <<< 3)) ((W >>> 3) <<< 3) (W - ((W >>> 3) <<< 3)))
      (inOff + Pitch) (o + W + extra) r

/-- The `NumPlanes ≤ 8` branch of `PlanarBitmap::ToChunky` (planar.cpp:
106-152), with `srcstep = Pitch * Height` (planar.cpp:128).  The claims only
concern `1 ≤ NumPlanes ≤ 8`, so the 16- and 32-bit-pixel branches are not
embedded. -/
def ToChunky8 (pd : Nat → Nat) (W H Pitch numPlanes extra : Nat)
    (dest : Nat → Nat) : Nat → Nat :=
  tcRows pd (Pitch * H) numPlanes W extra Pitch dest 0 0 H

/-- Value of a bit vector given by a bit-valued function: bit `i` weighs
`2 ^ i`. -/
def bitsVal (f : Nat → Nat) : Nat → Nat
  | 0 => 0
  | n + 1 => bitsVal f n + f n * 2 ^ n

theorem two_mul_or_bit (a b : Nat) (hb : b ≤ 1) : (a <<< 1) ||| b = 2 * a + b := by
  rw [Nat.shiftLeft_eq]
  have h2 : a * 2 ^ 1 = 2 * a := by ring
  rw [h2]
  rcases Nat.lt_or_ge b 1 with h | h
  · have hb0 : b = 0 := by omega
    subst hb0
    rw [Nat.or_zero, Nat.add_zero]
  · have hb1 : b = 1 := by omega
    subst hb1
    apply Nat.eq_of_testBit_eq
    intro i
    cases i with
    | zero =>
      rw [Nat.testBit_or]
      simp only [Nat.testBit_zero]
      have e1 : 2 * a % 2 = 0 := by omega
      have e2 : (2 * a + 1) % 2 = 1 := by omega
      rw [e1, e2]
      rfl
    | succ i =>
      rw [Nat.testBit_or, Nat.testBit_succ, Nat.testBit_succ, Nat.testBit_succ]
      have e1 : 2 * a / 2 = a := by omega
      have e2 : (2 * a + 1) / 2 = a := by omega
      have e3 : (1 : Nat) / 2 = 0 := by norm_num
      rw [e1, e2, e3]
      simp

theorem planeBit_le (pd : Nat → Nat) (srcstep byteOff bitIdx i : Nat) :
    planeBit pd srcstep byteOff bitIdx i ≤ 1 :=
  Nat.and_le_right

theorem serialGo_eq (pd : Nat → Nat) (srcstep byteOff bitIdx : Nat) :
    ∀ (n : Nat) (acc : Nat),
      serialGo pd srcstep byteOff bitIdx n acc =
        acc * 2 ^ n + bitsVal (planeBit pd srcstep byteOff bitIdx) n := by
  intro n
  induction n with
  | zero =>
    intro acc
    simp [serialGo, bitsVal]
  | succ n ih =>
    intro acc
    rw [serialGo, ih,
      two_mul_or_bit acc _ (planeBit_le pd srcstep byteOff bitIdx n), bitsVal]
    ring

theorem bitsVal_lt (f : Nat → Nat) (hf : ∀ i, f i ≤ 1) :
    ∀ n, bitsVal f n < 2 ^ n := by
  intro n
  induction n with
  | zero => simp [bitsVal]
  | succ n ih =>
    rw [bitsVal]
    have h1 : f n * 2 ^ n ≤ 1 * 2 ^ n := Nat.mul_le_mul_right _ (hf n)
    have h2 : (2 : Nat) ^ (n + 1) = 2 ^ n + 2 ^ n := by ring
    omega

theorem bitsVal_bit (f : Nat → Nat) (hf : ∀ i, f i ≤ 1) :
    ∀ (n j : Nat), j < n → bitsVal f n / 2 ^ j % 2 = f j := by
  intro n
  induction n with
  | zero => intro j h; omega
  | succ n ih =>
    intro j hj
    rw [bitsVal]
    rcases Nat.lt_or_ge j n with h | h
    · have hdiv : (bitsVal f n + f n * 2 ^ n) / 2 ^ j =
          bitsVal f n / 2 ^ j + f n * 2 ^ (n - j) := by
        have e : f n * 2 ^ n = (f n * 2 ^ (n - j)) * 2 ^ j := by
          rw [mul_assoc, ← pow_add]
          congr 2
          omega
        rw [e, Nat.add_mul_div_right _ _ (Nat.two_pow_pos j)]
      rw [hdiv]
      have heven : f n * 2 ^ (n - j) % 2 = 0 := by
        have e : f n * 2 ^ (n - j) = (f n * 2 ^ (n - j - 1)) * 2 := by
          rw [mul_assoc, ← pow_succ]
          congr 2
          omega
        omega
      have hih := ih j h
      omega
    · have hjn : j = n := by omega
      subst hjn
      have hlt := bitsVal_lt f hf j
      rw [Nat.add_mul_div_right _ _ (Nat.two_pow_pos j), Nat.div_eq_of_lt hlt,
        Nat.zero_add]
      have := hf j
      omega

theorem bitsVal_ext_zero (f : Nat → Nat) :
    ∀ (m n : Nat), n ≤ m → (∀ i, n ≤ i → i < m → f i = 0) →
      bitsVal f m = bitsVal f n := by
  intro m
  induction m with
  | zero =>
    intro n hn _
    have : n = 0 := by omega
    rw [this]
  | succ m ih =>
    intro n hn hz
    rcases Nat.lt_or_ge n (m + 1) with h | h
    · rw [bitsVal, hz m (by omega) (by omega), Nat.zero_mul, Nat.add_zero,
        ih n (by omega) (fun i h1 h2 => hz i h1 (by omega))]
    · have : n = m + 1 := by omega
      rw [this]

/-- The spec-modelled byte transpose agrees with the bit-serial method over
all 8 planes. -/
theorem rotate8x8Byte_eq_serial (pd : Nat → Nat) (srcstep srcOff k : Nat) :
    rotate8x8Byte pd srcstep srcOff k = serialPixel pd srcstep 8 srcOff (7 - k) := by
  unfold rotate8x8Byte serialPixel
  rw [serialGo_eq, Nat.zero_mul, Nat.zero_add]
  simp [List.range_succ, bitsVal, Nat.shiftLeft_eq]
  ring

theorem tcFastGo_spec (pd : Nat → Nat) (srcstep inOff : Nat) :
    ∀ (c : Nat) (dest : Nat → Nat) (o x j : Nat),
      tcFastGo pd srcstep inOff dest o x c j =
        if o ≤ j ∧ j < o + 8 * c then
          rotate8x8Byte pd srcstep (inOff + (x + (j - o) / 8)) ((j - o) % 8)
        else dest j := by
  intro c
  induction c with
  | zero =>
    intro dest o x j
    rw [tcFastGo]
    rw [if_neg (by omega)]
  | succ c ih =>
    intro dest o x j
    rw [tcFastGo, ih]
    by_cases h : o + 8 ≤ j ∧ j < o + 8 + 8 * c
    · rw [if_pos h, if_pos (by omega : o ≤ j ∧ j < o + 8 * (c + 1))]
      have hj8 : j - o = (j - (o + 8)) + 1 * 8 := by omega
      have e1 : x + 1 + (j - (o + 8)) / 8 = x + (j - o) / 8 := by
        rw [hj8, Nat.add_mul_div_right _ _ (by norm_num : (0 : Nat) < 8)]
        omega
      have e2 : (j - (o + 8)) % 8 = (j - o) % 8 := by
        rw [hj8, Nat.add_mul_mod_self_right]
      rw [e1, e2]
    · rw [if_neg h]
      unfold rot8Write
      by_cases h2 : o ≤ j ∧ j < o + 8
      · rw [if_pos h2, if_pos (by omega : o ≤ j ∧ j < o + 8 * (c + 1))]
        have e1 : x + (j - o) / 8 = x := by
          rw [Nat.div_eq_of_lt (by omega : j - o < 8)]
          omega
        have e2 : (j - o) % 8 = j - o := Nat.mod_eq_of_lt (by omega)
        rw [e1, e2]
      · rw [if_neg h2, if_neg (by omega : ¬(o ≤ j ∧ j < o + 8 * (c + 1)))]

theorem tcTailGo_spec (pd : Nat → Nat) (srcstep numPlanes byteOff : Nat) :
    ∀ (c : Nat) (dest : Nat → Nat) (o x j : Nat),
      tcTailGo pd srcstep numPlanes byteOff dest o x c j =
        if o ≤ j ∧ j < o + c then
          serialPixel pd srcstep numPlanes byteOff (7 - ((x + (j - o)) &&& 7))
        else dest j := by
  intro c
  induction c with
  | zero =>
    intro dest o x j
    rw [tcTailGo]
    rw [if_neg (by omega)]
  | succ c ih =>
    intro dest o x j
    rw [tcTailGo, ih]
    by_cases h : o + 1 ≤ j ∧ j < o + 1 + c
    · rw [if_pos h, if_pos (by omega : o ≤ j ∧ j < o + (c + 1))]
      have e : x + 1 + (j - (o + 1)) = x + (j - o) := by omega
      rw [e]
    · rw [if_neg h]
      unfold wr
      by_cases h2 : j = o
      · rw [if_pos h2, if_pos (by omega : o ≤ j ∧ j < o + (c + 1))]
        have e : x + (j - o) = x := by omega
        rw [e]
      · rw [if_neg h2, if_neg (by omega : ¬(o ≤ j ∧ j < o + (c + 1)))]

theorem tcRows_untouched (pd : Nat → Nat) (srcstep numPlanes W extra Pitch : Nat) :
    ∀ (r : Nat) (dest : Nat → Nat) (inOff o j : Nat), j < o →
      tcRows pd srcstep numPlanes W extra Pitch dest inOff o r j = dest j := by
  intro r
  induction r with
  | zero =>
    intro dest inOff o j _
    rw [tcRows]
  | succ r ih =>
    intro dest inOff o j h
    rw [tcRows, ih _ _ _ _ (by omega)]
    rw [tcTailGo_spec, if_neg (by omega)]
    rw [tcFastGo_spec, if_neg (by omega)]

/-- The value written at column `xcol` of the row whose plane data starts at
byte `inOff`: the fast path covers columns below `8 * (W >> 3)`, the
bit-serial tail the rest. -/
def rowPixel (pd : Nat → Nat) (srcstep numPlanes W inOff xcol : Nat) : Nat :=
  if xcol < (W >>> 3) <<< 3 then
    rotate8x8Byte pd srcstep (inOff + xcol / 8) (xcol % 8)
  else
    serialPixel pd srcstep numPlanes (inOff + (W >>> 3)) (7 - (xcol &&& 7))

theorem tcRows_at (pd : Nat → Nat) (srcstep numPlanes W extra Pitch : Nat) :
    ∀ (r : Nat) (dest : Nat → Nat) (inOff o y xcol : Nat), y < r → xcol < W →
      tcRows pd srcstep numPlanes W extra Pitch dest inOff o r
        (o + y * (W + extra) + xcol) =
        rowPixel pd srcstep numPlanes W (inOff + y * Pitch) xcol := by
  intro r
  induction r with
  | zero =>
    intro _ _ _ _ _ h _
    omega
  | succ r ih =>
    intro dest inOff o y xcol hy hx
    rw [tcRows]
    have hq8 : (W >>> 3) <<< 3 = 8 * (W >>> 3) := by
      rw [Nat.shiftLeft_eq]
      have e : (2 : Nat) ^ 3 = 8 := by norm_num
      rw [e]
      ring
    rcases y with _ | y
    · simp only [Nat.zero_mul, Nat.add_zero, Nat.zero_add]
      rw [tcRows_untouched pd srcstep numPlanes W extra Pitch r _ _ _ _ (by omega)]
      rw [tcTailGo_spec]
      unfold rowPixel
      by_cases hxq : xcol < (W >>> 3) <<< 3
      · rw [if_neg (by omega : ¬(o + (W >>> 3) <<< 3 ≤ o + xcol ∧
          o + xcol < o + (W >>> 3) <<< 3 + (W - (W >>> 3) <<< 3)))]
        rw [tcFastGo_spec, if_pos (by omega : o ≤ o + xcol ∧
          o + xcol < o + 8 * (W >>> 3))]
        have e1 : o + xcol - o = xcol := by omega
        rw [e1, Nat.zero_add, if_pos hxq]
      · rw [if_pos (by omega : o + (W >>> 3) <<< 3 ≤ o + xcol ∧
          o + xcol < o + (W >>> 3) <<< 3 + (W - (W >>> 3) <<< 3))]
        rw [if_neg hxq]
        have e : (W >>> 3) <<< 3 + (o + xcol - (o + (W >>> 3) <<< 3)) = xcol := by
          omega
        rw [e]
    · have e : o + (y + 1) * (W + extra) + xcol =
          (o + W + extra) + y * (W + extra) + xcol := by ring
      rw [e, ih _ _ _ _ _ (by omega) hx]
      have e2 : inOff + Pitch + y * Pitch = inOff + (y + 1) * Pitch := by ring
      rw [e2]

/-- The per-column value of a row equals the bit-serial method at byte
`inOff + xcol / 8`, bit `7 - xcol % 8`: on the fast path because the
transpose over the 8 (zero-padded) planes agrees with the serial scan of the
real planes, on the tail because the constant byte offset is exactly
`xcol / 8` there. -/
theorem rowPixel_eq_serial (pd : Nat → Nat) (srcstep numPlanes W inOff xcol : Nat)
    (h8 : numPlanes ≤ 8) (hx : xcol < W)
    (hzb : ∀ i, numPlanes ≤ i → i < 8 →
      pd (i * srcstep + (inOff + xcol / 8)) = 0) :
    rowPixel pd srcstep numPlanes W inOff xcol =
      serialPixel pd srcstep numPlanes (inOff + xcol / 8) (7 - xcol % 8) := by
  unfold rowPixel
  have hq8 : (W >>> 3) <<< 3 = 8 * (W >>> 3) := by
    rw [Nat.shiftLeft_eq]
    have e : (2 : Nat) ^ 3 = 8 := by norm_num
    rw [e]
    ring
  have hWq : W >>> 3 = W / 8 := by
    rw [Nat.shiftRight_eq_div_pow]
  by_cases hfast : xcol < (W >>> 3) <<< 3
  · rw [if_pos hfast, rotate8x8Byte_eq_serial]
    unfold serialPixel
    rw [serialGo_eq, serialGo_eq, Nat.zero_mul, Nat.zero_add, Nat.zero_mul,
      Nat.zero_add]
    apply bitsVal_ext_zero _ 8 numPlanes h8
    intro i hi1 hi2
    unfold planeBit
    rw [hzb i hi1 hi2]
    simp
  · rw [if_neg hfast]
    have hmod := Nat.div_add_mod W 8
    have hmlt : W % 8 < 8 := Nat.mod_lt _ (by norm_num)
    have hx8 : xcol / 8 = W >>> 3 := by
      rw [hWq]
      apply Nat.div_eq_of_lt_le
      · omega
      · have e : (W / 8 + 1) * 8 = W / 8 * 8 + 8 := by ring
        have e2 : 8 * (W / 8) = W / 8 * 8 := by ring
        omega
    have hand : xcol &&& 7 = xcol % 8 := by
      have h := Nat.and_pow_two_sub_one_eq_mod xcol 3
      norm_num at h
      exact h
    rw [hand, hx8]

-- ## Claim C7: ToChunky deinterleaves bit-serially, fast path included

/-- C7: for `1 ≤ numPlanes ≤ 8` (with the unused planes up to 8 zero-filled,
as the allocator guarantees, and the word-aligned pitch covering the width),
the `ToChunky` output byte for pixel `(x, y)` — fast rotate8x8 path and
bit-serial remainder combined — equals the bit-serial method applied to that
column: bit `i` of the value is bit `7 - x % 8` of plane `i`'s byte at
offset `y * Pitch + x / 8` (plane 0 least significant), and all bits from
`numPlanes` up are zero. -/
theorem C7_to_chunky (pd : Nat → Nat) (W H Pitch numPlanes extra : Nat)
    (dest : Nat → Nat) (x y : Nat)
    (_h1 : 1 ≤ numPlanes) (h8 : numPlanes ≤ 8)
    (hx : x < W) (hy : y < H) (hPitch : W ≤ 8 * Pitch)
    (hz : ∀ a, numPlanes * (Pitch * H) ≤ a → a < 8 * (Pitch * H) → pd a = 0) :
    ToChunky8 pd W H Pitch numPlanes extra dest (y * (W + extra) + x) =
      serialPixel pd (Pitch * H) numPlanes (y * Pitch + x / 8) (7 - x % 8) ∧
    (∀ i, i < numPlanes →
      serialPixel pd (Pitch * H) numPlanes (y * Pitch + x / 8) (7 - x % 8) /
          2 ^ i % 2 =
        planeBit pd (Pitch * H) (y * Pitch + x / 8) (7 - x % 8) i) ∧
    serialPixel pd (Pitch * H) numPlanes (y * Pitch + x / 8) (7 - x % 8) <
      2 ^ numPlanes := by
  have hb : y * Pitch + x / 8 < Pitch * H := by
    have hdiv : x / 8 < Pitch := Nat.div_lt_of_lt_mul (by omega : x < 8 * Pitch)
    have h2 : (y + 1) * Pitch ≤ H * Pitch := Nat.mul_le_mul_right Pitch (by omega)
    have h3 : (y + 1) * Pitch = y * Pitch + Pitch := by ring
    have h4 : H * Pitch = Pitch * H := Nat.mul_comm H Pitch
    omega
  have hzb : ∀ i, numPlanes ≤ i → i < 8 →
      pd (i * (Pitch * H) + (y * Pitch + x / 8)) = 0 := by
    intro i hi1 hi2
    apply hz
    · have := Nat.mul_le_mul_right (Pitch * H) hi1
      omega
    · have h7 : i * (Pitch * H) ≤ 7 * (Pitch * H) :=
        Nat.mul_le_mul_right _ (by omega)
      have h8' : 8 * (Pitch * H) = 7 * (Pitch * H) + Pitch * H := by ring
      omega
  refine ⟨?_, ?_, ?_⟩
  · unfold ToChunky8
    rw [show y * (W + extra) + x = 0 + y * (W + extra) + x from by omega]
    rw [tcRows_at pd (Pitch * H) numPlanes W extra Pitch H dest 0 0 y x hy hx]
    rw [show (0 : Nat) + y * Pitch = y * Pitch from by omega]
    exact rowPixel_eq_serial pd (Pitch * H) numPlanes W (y * Pitch) x h8 hx hzb
  · intro i hi
    unfold serialPixel
    rw [serialGo_eq, Nat.zero_mul, Nat.zero_add]
    exact bitsVal_bit _ (fun i => planeBit_le pd (Pitch * H) _ _ i) numPlanes i hi
  · unfold serialPixel
    rw [serialGo_eq, Nat.zero_mul, Nat.zero_add]
    exact bitsVal_lt _ (fun i => planeBit_le pd (Pitch * H) _ _ i) numPlanes

/-- Plane data for the C7 witness: one 8x1 bitplane (pitch 2) filled with
0xFF as by `FillBitplane(0, true)`; the seven padding planes are zero. -/
def C7pd : Nat → Nat := fun a => if a < 2 then 255 else 0

/-- Witness for C7: pixel (3, 0) of the deinterleaved 8x1 single-plane image
matches the bit-serial value, and that value is 1. -/
theorem C7_witness :
    ToChunky8 C7pd 8 1 2 1 0 (fun _ => 99) (0 * (8 + 0) + 3) =
      serialPixel C7pd 2 1 (0 * 2 + 3 / 8) (7 - 3 % 8) ∧
    ToChunky8 C7pd 8 1 2 1 0 (fun _ => 99) (0 * (8 + 0) + 3) = 1 := by
  refine ⟨(C7_to_chunky C7pd 8 1 2 1 0 (fun _ => 99) 3 0 (by decide) (by decide)
    (by decide) (by decide) (by decide) ?_).1, by decide⟩
  intro a ha1 ha2
  show (if a < 2 then 255 else 0) = 0
  rw [if_neg (by omega)]
